import Mathlib

/-!
# Verification of the HashFS content-addressable store

Shallow embedding of `src/hashfs/hashfs.py` (class `HashFS`).

Modelling conventions:

* Byte strings manipulated by the Python code (paths, digests, tokens) are
  `Str := List Char`.  An absolute filesystem path is represented by its
  `'/'`-separated components, `Path := List Str`; an absolute path such as
  `/store/b/a` is `["", "store", "b", "a"]` (leading empty component for the
  root slash), matching Python's `"/store/b/a".split("/")`.
* The filesystem is an explicit state `FS`: an association list of regular
  files (path, content), a list of existing directories and a list of
  directory symlinks.  File contents are byte lists (`Content := List Nat`).
* `hashlib` is an external library, modelled as a parameter
  `H : String → Content → Str` mapping an algorithm name and content to the
  hexadecimal digest string.  Concrete instantiations in witness theorems use
  the published test vectors of the real algorithms.
* OS primitives (`os.path.join`, `os.path.splitext`, `os.path.dirname`,
  `os.path.relpath`, `glob.glob`, `shutil.move`, `os.remove`,
  `os.makedirs`, ...) are modelled on the component representation with
  their documented behaviour on the inputs the store produces.
  Permission bits (`fmode`/`dmode`, `os.chmod`, `os.umask`) are not modelled:
  no claim under verification mentions them.
* Fallible operations return `Except`; fault injection for the environment
  (the outcome of `shutil.move` in `_copy`, the outcome of `os.remove` in
  `delete`) is passed explicitly as data.
-/

namespace HashFS

abbrev Str := List Char
abbrev Path := List Str
abbrev Content := List Nat

/-- The path separator `os.sep` (POSIX). -/
def sep : Char := '/'

/-- The extension separator `os.extsep`. -/
def extsep : Char := '.'

/-- Models Python `str.split("/")`: splits on every separator, keeping empty
pieces, and maps the empty string to `[""]`. -/
def splitSep : Str → List Str
  | [] => [[]]
  | c :: rest =>
    match splitSep rest with
    | [] => [[]]
    | h :: t => if c = sep then [] :: h :: t else (c :: h) :: t

/-- Inverse of `splitSep`: joins components with `'/'`, modelling the string
form of a component path. -/
def joinSep : List Str → Str
  | [] => []
  | [x] => x
  | x :: y :: t => x ++ sep :: joinSep (y :: t)

/-- Finds the last `'.'` in a leaf name and splits there: returns
`(before, from-dot)` or `none` when the name has no dot. -/
def splitAtLastDot : Str → Option (Str × Str)
  | [] => none
  | c :: rest =>
    match splitAtLastDot rest with
    | some (r, e) => some (c :: r, e)
    | none => if c = extsep then some ([], c :: rest) else none

/-- Models `os.path.splitext` restricted to a leaf (basename) component: the
extension starts at the last dot, except when every character before that dot
is itself a dot (so `".bashrc"` has no extension).  Characters before the last
`'/'` never participate, which is why acting on the leaf component alone is
faithful. -/
def splitExtLeaf (l : Str) : Str × Str :=
  match splitAtLastDot l with
  | none => (l, [])
  | some (r, e) => if r.any (fun c => c ≠ extsep) then (r, e) else (l, [])

/-- Modelled from the spec: `shard` lives in the repository's `utils` module,
which is not under `src/`.  Spec §4.1: split the identifier's first
`depth * width` characters into `depth` consecutive segments of `width`
characters each, then append the remaining suffix of the identifier as the
final (leaf) segment; short identifiers produce short or empty segments by the
general slicing rule. -/
def shard (id : Str) (depth width : Nat) : Path :=
  (List.range depth).map (fun i => (id.drop (i * width)).take width)
    ++ [id.drop (depth * width)]

/-- Modelled from the spec: `issubdir` lives in the repository's `utils`
module, which is not under `src/`.  Spec §4.1/§4.4: a path is "rooted under
the store" when it lies strictly inside the root directory.  On canonical
component paths this is: the root is a proper prefix. -/
def issubdir (p root : Path) : Bool :=
  root.isPrefixOf p && decide (root.length < p.length)

/-- Store configuration (`HashFS.__init__`): root directory, shard depth and
width, primary hash algorithm name.  Permission modes are not modelled. -/
structure Cfg where
  root : Path
  depth : Nat
  width : Nat
  algorithm : String
deriving DecidableEq

/-- Filesystem state: regular files with contents, directories, and directory
symlinks. -/
structure FS where
  files : List (Path × Content)
  dirs : List Path
  links : List Path
deriving DecidableEq

/-- `os.path.isfile`. -/
def FS.isfile (fs : FS) (p : Path) : Bool :=
  fs.files.any (fun f => f.1 = p)

/-- Reading a file's bytes. -/
def FS.lookupFile (fs : FS) (p : Path) : Option Content :=
  (fs.files.find? (fun f => f.1 = p)).map (fun f => f.2)

/-- Creating a file (a write to a fresh path appends a directory entry). -/
def FS.addFile (fs : FS) (p : Path) (c : Content) : FS :=
  { fs with files := fs.files ++ [(p, c)] }

/-- `os.remove` (successful case). -/
def FS.removeFile (fs : FS) (p : Path) : FS :=
  { fs with files := fs.files.filter (fun f => !(f.1 = p : Bool)) }

/-- `shutil.move` (successful case): relocate `src` to `dst`. -/
def FS.move (fs : FS) (src dst : Path) : FS :=
  match fs.lookupFile src with
  | some c => (fs.removeFile src).addFile dst c
  | none => fs

/-- The non-trivial prefixes of a path, shortest first. -/
def pathPrefixes (p : Path) : List Path :=
  (List.range p.length).map (fun i => p.take (i + 1))

/-- `os.makedirs` as used by `makepath`: create every missing ancestor
directory of `p` and `p` itself (existing directories are left alone). -/
def FS.makedirs (fs : FS) (p : Path) : FS :=
  { fs with dirs := fs.dirs ++ (pathPrefixes p).filter (fun d => !fs.dirs.contains d) }

/-- `os.rmdir`. -/
def FS.rmdir (fs : FS) (d : Path) : FS :=
  { fs with dirs := fs.dirs.filter (fun x => !(x = d : Bool)) }

/-- `len(os.listdir(d)) > 0`: `d` has a child entry (file, directory or
symlink whose parent is `d`). -/
def FS.hasChild (fs : FS) (d : Path) : Bool :=
  fs.files.any (fun f => !f.1.isEmpty && f.1.dropLast = d)
    || fs.dirs.any (fun x => !x.isEmpty && x.dropLast = d)
    || fs.links.any (fun x => !x.isEmpty && x.dropLast = d)

/-- `os.path.islink`. -/
def FS.islink (fs : FS) (p : Path) : Bool :=
  fs.links.contains p

/-- The paths of the regular files of the state. -/
def FS.fileKeys (fs : FS) : List Path :=
  fs.files.map (fun f => f.1)

/-- All entry paths of the state: file paths, directories and symlinks. -/
def FS.paths (fs : FS) : List Path :=
  fs.files.map (fun f => f.1) ++ fs.dirs ++ fs.links

/-- A directory entry of the state: a file, a directory or a symlink sits at
exactly this path. -/
def FS.entry (fs : FS) (q : Path) : Prop :=
  (∃ c, (q, c) ∈ fs.files) ∨ q ∈ fs.dirs ∨ q ∈ fs.links

/-- Well-formedness of a state: every proper non-empty prefix of a file's
path is an existing directory. -/
def WF (fs : FS) : Prop :=
  ∀ p ∈ fs.files.map (fun f => f.1), ∀ k, k < p.length → 0 < k → p.take k ∈ fs.dirs

/-- Normalisation of the optional extension in `idpath`: a non-empty
extension not starting with `os.extsep` gets a dot prepended; an empty
extension stays empty. -/
def normExt (e : Str) : Str :=
  if e = [] then []
  else if e.headD ' ' = extsep then e
  else extsep :: e

/-- Append a string to the last component of a non-empty path (the effect of
Python's string concatenation `os.path.join(root, *paths) + extension`). -/
def appendLast (p : Path) (e : Str) : Path :=
  p.dropLast ++ [p.getLastD [] ++ e]

/-- `HashFS.idpath`: build the sharded file path for a hash identifier,
optionally appending a file extension. -/
def idpath (cfg : Cfg) (id : Str) (extension : Str) : Path :=
  cfg.root ++ appendLast (shard id cfg.depth cfg.width) (normExt extension)

/-- `HashFS.relpath`: `os.path.relpath(path, root)` for paths under the
root is the path with the root components stripped. -/
def relpath (cfg : Cfg) (p : Path) : Path :=
  p.drop cfg.root.length

/-- `HashFS.haspath`. -/
def haspath (cfg : Cfg) (p : Path) : Bool :=
  issubdir p cfg.root

/-- Models Python `os.path.join(root, file)` for a string token: an absolute
token (leading separator) replaces the root. -/
def joinPath (root : Path) (file : Str) : Path :=
  if file.headD ' ' = sep then splitSep file else root ++ splitSep file

/-- The matches of `glob.glob(filepath + ".*")` over the store's files, in
listing order: files in the same directory whose leaf extends the expected
leaf by a dot.  (Matching directory entries are not modelled: the store's
layout never creates a directory matching the pattern.) -/
def globExt (fs : FS) (base : Path) : List Path :=
  (fs.files.map (fun f => f.1)).filter
    (fun q => q.dropLast = base.dropLast
      && (base.getLastD [] ++ [extsep]).isPrefixOf (q.getLastD []))

/-- `HashFS.realpath`: successive candidate resolution of a token — the token
as a path, the token relative to the root, the token sharded, and the sharded
path with any extension (first glob match); `none` when nothing matches. -/
def realpath (cfg : Cfg) (fs : FS) (file : Str) : Option Path :=
  let p1 := splitSep file
  if fs.isfile p1 then some p1
  else
    let p2 := joinPath cfg.root file
    if fs.isfile p2 then some p2
    else
      let p3 := idpath cfg file []
      if fs.isfile p3 then some p3
      else
        match globExt fs p3 with
        | q :: _ => some q
        | [] => none

/-- `HashFS.remove_empty` loop body, fuelled: walk upward removing empty,
non-symlink directories until the root, a non-empty directory, or a symlink
is reached.  Each iteration strips one component, so fuel `sub.length + 1`
always suffices for the Python `while` loop's behaviour. -/
def removeEmptyGo (root : Path) : Nat → FS → Path → FS
  | 0, fs, _ => fs
  | fuel + 1, fs, sub =>
    if sub = root then fs
    else if fs.hasChild sub || fs.islink sub then fs
    else removeEmptyGo root fuel (fs.rmdir sub) sub.dropLast

/-- `HashFS.remove_empty`. -/
def remove_empty (cfg : Cfg) (fs : FS) (sub : Path) : FS :=
  if haspath cfg sub then removeEmptyGo cfg.root (sub.length + 1) fs sub else fs

/-- Outcome of the `os.remove` call inside `delete`, injected as data:
`none` is success, `some e` is an `OSError` of the given kind. -/
inductive RmErr where
  | enoent
  | eperm
  | eio
deriving DecidableEq

/-- `HashFS.delete`: resolve the token; if it resolves, try to remove the
file — the source swallows every `OSError` (`except OSError: pass`), and runs
`remove_empty` on the parent only after a successful removal.  The function
returns a plain state because the source never lets a removal failure
escape. -/
def delete (cfg : Cfg) (fs : FS) (file : Str) (rm : Option RmErr) : FS :=
  match realpath cfg fs file with
  | none => fs
  | some rp =>
    match rm with
    | some _ => fs
    | none => remove_empty cfg (fs.removeFile rp) rp.dropLast

/-- `HashAddress`: the value object returned by `put`/`get`. -/
structure HashAddress where
  id : Str
  relpath : Path
  abspath : Path
  is_duplicate : Bool
  hex_digests : List (String × Str)
deriving DecidableEq

/-- The baseline digest set of `_mktempfile`. -/
def default_algo_list : List String := ["sha1", "sha256", "sha384", "sha512", "md5"]

/-- The recognised extended digest set of `_mktempfile`. -/
def other_algo_list : List String :=
  ["sha224", "sha3_224", "sha3_256", "sha3_384", "sha3_512", "blake2b", "blake2s"]

/-- Environment data for one `put` call: the fresh temp file name produced by
`NamedTemporaryFile`, and the outcome of the `shutil.move` relocation —
`moveOk = false` injects a relocation failure, in which case
`moveDstCreated` says whether the failed move left a (possibly incomplete)
file at the destination, and `moveCause` is the message of the underlying
OS error. -/
structure PutEnv where
  tmp : Str
  moveOk : Bool
  moveDstCreated : Bool
  moveCause : String

/-- Errors raised by `put`/`_copy`: the `KeyError` of `hex_digests[algorithm]`
for an uncomputed algorithm, the `ValueError` for a checksum mismatch, and
the wrapping `Exception` for a failed relocation (carrying the underlying
cause). -/
inductive PutErr where
  | keyError (alg : String)
  | checksumMismatch (alg : String) (checksum digest : Str)
  | moveFailure (cause : String)
deriving DecidableEq

/-- The algorithms hashed by `_mktempfile`: the baseline set, plus the
requested algorithm when it belongs to the recognised extended set. -/
def digestAlgos (algorithm : Option String) : List String :=
  default_algo_list ++
    (match algorithm with
     | some a => if other_algo_list.contains a then [a] else []
     | none => [])

/-- The digest dictionary built by `_mktempfile` (`dict(zip(...))`). -/
def hexDigests (H : String → Content → Str) (content : Content)
    (algorithm : Option String) : List (String × Str) :=
  (digestAlgos algorithm).map (fun a => (a, H a content))

/-- `HashFS._mktempfile`: write the stream to a fresh named temporary file
and compute the digest dictionary — the five baseline algorithms plus the
requested one when it belongs to the recognised extended set.  Returns the
dictionary, the temp file name, and the new state. -/
def mktempfile (H : String → Content → Str) (env : PutEnv) (fs : FS)
    (content : Content) (algorithm : Option String) :
    List (String × Str) × Str × FS :=
  (hexDigests H content algorithm, env.tmp,
    fs.addFile (splitSep env.tmp) content)

/-- The relocation step of `_copy` (`shutil.move` inside `try/except`): on
success the temp file is moved to `filepath`; on failure — injected through
`env.moveOk` — the source deletes the canonical target if one was (partially)
created, deletes the temp file, and fails with the wrapping error carrying
the underlying cause. -/
def moveStep (cfg : Cfg) (env : PutEnv) (content : Content)
    (hex_digests : List (String × Str)) (filepath : Path) (fname : Str)
    (fs2 : FS) : Except PutErr (List (String × Str) × Path × Bool) × FS :=
  if env.moveOk then
    (.ok (hex_digests, filepath, false),
      (fs2.removeFile (splitSep fname)).addFile filepath content)
  else
    let fsA := if env.moveDstCreated then fs2.addFile filepath content else fs2
    let fsB := if fsA.isfile filepath then delete cfg fsA (joinSep filepath) none else fsA
    (.error (.moveFailure env.moveCause), delete cfg fsB fname none)

/-- `HashFS._copy`: stage the stream into a temp file, derive the canonical
path from the sha256 digest, create parent directories, then: if no file
exists at the canonical path, validate the optional checksum (deleting the
temp file and failing on mismatch; failing with a `KeyError` — temp file left
in place — when the algorithm's digest was never computed) and relocate the
temp file, cleaning up and failing when the relocation fails; if a file
already exists there, discard the temp file and report a duplicate.  The
internal `self.delete(...)` calls are modelled with a successful removal
outcome. -/
def copy (H : String → Content → Str) (cfg : Cfg) (env : PutEnv) (fs : FS)
    (content : Content) (extension : Str) (algorithm : Option String)
    (checksum : Option Str) :
    Except PutErr (List (String × Str) × Path × Bool) × FS :=
  let staged := mktempfile H env fs content algorithm
  let hex_digests := staged.1
  let fname := staged.2.1
  let fs1 := staged.2.2
  let id := (hex_digests.lookup "sha256").getD []
  let filepath := idpath cfg id extension
  let fs2 := fs1.makedirs filepath.dropLast
  if fs2.isfile filepath then
    (.ok (hex_digests, filepath, true), delete cfg fs2 fname none)
  else
    match algorithm, checksum with
    | some a, some c =>
      match hex_digests.lookup a with
      | none => (.error (.keyError a), fs2)
      | some d =>
        if d ≠ c then (.error (.checksumMismatch a c d), delete cfg fs2 fname none)
        else moveStep cfg env content hex_digests filepath fname fs2
    | some _, none => moveStep cfg env content hex_digests filepath fname fs2
    | none, _ => moveStep cfg env content hex_digests filepath fname fs2

/-- `HashFS.put`: run `_copy` and package the result into a `HashAddress`
whose identifier is `hex_digest_dict["sha256"]`. -/
def put (H : String → Content → Str) (cfg : Cfg) (env : PutEnv) (fs : FS)
    (content : Content) (extension : Str) (algorithm : Option String)
    (checksum : Option Str) : Except PutErr HashAddress × FS :=
  match copy H cfg env fs content extension algorithm checksum with
  | (.error e, fs') => (.error e, fs')
  | (.ok (dict, filepath, dup), fs') =>
    let id := (dict.lookup "sha256").getD []
    (.ok ⟨id, relpath cfg filepath, filepath, dup, dict⟩, fs')

/-- `HashFS.unshard`: fail when the path is not rooted under the store;
otherwise take the path relative to the root, strip any file extension and
remove the path separators (concatenating the remaining segments). -/
def unshard (cfg : Cfg) (path : Path) : Except String Str :=
  if haspath cfg path then
    let rel := relpath cfg path
    .ok ((rel.dropLast).foldr (fun a b => a ++ b) (splitExtLeaf (rel.getLastD [])).1)
  else
    .error "Cannot unshard path: not a subdirectory of the root directory"

/-- `HashFS.computehash`: hash with the configured algorithm unless one is
passed explicitly. -/
def computehash (H : String → Content → Str) (cfg : Cfg) (content : Content)
    (algorithm : Option String) : Str :=
  H (algorithm.getD cfg.algorithm) content

/-- The expected `HashAddress` computed by `corrupted` for a stored file:
identifier recomputed from the file's bytes with the configured algorithm,
expected path derived from it, optionally preserving the file's current
extension. -/
def addrExpected (H : String → Content → Str) (cfg : Cfg) (extensions : Bool)
    (p : Path) (c : Content) : HashAddress :=
  let id := computehash H cfg c none
  let ext := if extensions then (splitExtLeaf (p.getLastD [])).2 else []
  let expected := idpath cfg id ext
  ⟨id, relpath cfg expected, expected, false, []⟩

/-- The per-file check of `corrupted`: `none` when the file already sits at
its expected canonical path, otherwise the pair (actual path, expected
address). -/
def corruptedEntry (H : String → Content → Str) (cfg : Cfg) (extensions : Bool)
    (f : Path × Content) : Option (Path × HashAddress) :=
  let a := addrExpected H cfg extensions f.1 f.2
  if a.abspath = f.1 then none else some (f.1, a)

/-- `HashFS.corrupted`: every stored file whose actual path differs from the
expected canonical path recomputed from its bytes, paired with the expected
address, in the enumeration order of `files()` (modelled by the state's file
list order). -/
def corrupted (H : String → Content → Str) (cfg : Cfg) (extensions : Bool)
    (fs : FS) : List (Path × HashAddress) :=
  fs.files.filterMap (corruptedEntry H cfg extensions)

/-- One iteration of the `repair` loop: if a file already exists at the
expected canonical path, delete the corrupted copy; otherwise create the
parent directories and move the corrupted file to the canonical path.
(`os.chmod` afterwards is not modelled.) -/
def repairStep (_cfg : Cfg) (fs : FS) (e : Path × HashAddress) : FS :=
  if fs.isfile e.2.abspath then fs.removeFile e.1
  else (fs.makedirs e.2.abspath.dropLast).move e.1 e.2.abspath

/-- `HashFS.repair`: materialise the complete corrupted set first
(`tuple(self.corrupted(...))`), then apply `repairStep` to each entry in
order; returns the list of repaired entries and the final state. -/
def repair (H : String → Content → Str) (cfg : Cfg) (extensions : Bool)
    (fs : FS) : List (Path × HashAddress) × FS :=
  let cor := corrupted H cfg extensions fs
  (cor, cor.foldl (repairStep cfg) fs)

/-! ## Concrete fixtures

Concrete stores, environments and a pointwise model of `hashlib`, used by
witness and counterexample theorems. -/

/-- The bytes of the string `"abc"`. -/
def abcBytes : Content := [97, 98, 99]

/-- SHA-256 of `"abc"` (published test vector). -/
def sha256abc : Str :=
  "ba7816bf8f01cfea414140de5dae2223b00361a396177a9cb410ff61f20015ad".toList

/-- MD5 of `"abc"` (published test vector). -/
def md5abc : Str := "900150983cd24fb0d6963f7d28e17f72".toList

/-- Models the external `hashlib` primitive at the single input `"abc"`: each
algorithm returns its published test-vector digest of `"abc"`, and the empty
string elsewhere.  Only the value at `"abc"` is ever used. -/
def hashlibABC (a : String) (c : Content) : Str :=
  if c = abcBytes then
    if a = "sha1" then "a9993e364706816aba3e25717850c26c9cd0d89d".toList
    else if a = "sha256" then sha256abc
    else if a = "sha384" then
      "cb00753f45a35e8bb5a03d699ac65007272c32ab0eded1631a8b605a43ff5bed8086072ba1e7cc2358baeca134c825a7".toList
    else if a = "sha512" then
      "ddaf35a193617abacc417349ae20413112e6fa4e89a97ea20a9eeee64b55d39a2192992a274fc1a836ba3c23a3feebbd454d4423643ce80e2a9ac94fa54ca49f".toList
    else if a = "md5" then md5abc
    else []
  else []

/-- Root directory `/store` as a component path. -/
def storeRoot : Path := [[], ['s', 't', 'o', 'r', 'e']]

/-- Default store configuration: `/store`, depth 4, width 1, sha256. -/
def cfgX : Cfg := ⟨storeRoot, 4, 1, "sha256"⟩

/-- A store configured with `algorithm="md5"` as its primary algorithm. -/
def cfgMd5 : Cfg := ⟨storeRoot, 4, 1, "md5"⟩

/-- The canonical sharded path of `"abc"` under `cfgX`. -/
def canonAbc : Path := idpath cfgX sha256abc []

/-- An empty store: no files, only the root directory. -/
def fs0X : FS := ⟨[], [storeRoot], []⟩

/-- A store already holding the object `"abc"` at its canonical path
(shard directories present). -/
def fsDup : FS :=
  ⟨[(canonAbc, abcBytes)],
   [storeRoot] ++ (pathPrefixes canonAbc.dropLast).filter
      (fun d => !([storeRoot].contains d)), []⟩

/-- A store holding `"abc"` at its canonical path with extension `.txt`. -/
def fsExt : FS := ⟨[(idpath cfgX sha256abc ['t', 'x', 't'], abcBytes)], [storeRoot], []⟩

/-- A store with `"abc"` at its canonical path (the only object in its shard
subtree, all ancestor directories present) plus one unrelated object at
`/store/x/y`. -/
def fsC8 : FS :=
  ⟨[(canonAbc, abcBytes), (storeRoot ++ [['x'], ['y']], [1])],
   [[[]], storeRoot, canonAbc.take 3, canonAbc.take 4, canonAbc.take 5, canonAbc.take 6,
    storeRoot ++ [['x']]],
   []⟩

/-- A store holding `"abc"` at a wrong (corrupted) location `/store/x/y`. -/
def fsC9 : FS :=
  ⟨[(storeRoot ++ [['x'], ['y']], abcBytes)], [storeRoot, storeRoot ++ [['x']]], []⟩

/-- A put environment with a fresh temp file and a succeeding relocation. -/
def envA : PutEnv := ⟨"/tmp/tmpaaa".toList, true, false, "no error"⟩

/-- A second fresh temp file, succeeding relocation. -/
def envB : PutEnv := ⟨"/tmp/tmpbbb".toList, true, false, "no error"⟩

/-- An environment whose relocation fails leaving a file at the
destination. -/
def envF : PutEnv := ⟨"/tmp/tmpccc".toList, false, true, "disk full"⟩

/-! ## Basic lemmas about the filesystem model -/

theorem files_makedirs (fs : FS) (d : Path) : (fs.makedirs d).files = fs.files := rfl

theorem links_makedirs (fs : FS) (d : Path) : (fs.makedirs d).links = fs.links := rfl

theorem files_rmdir (fs : FS) (d : Path) : (fs.rmdir d).files = fs.files := rfl

theorem links_rmdir (fs : FS) (d : Path) : (fs.rmdir d).links = fs.links := rfl

theorem isfile_makedirs (fs : FS) (d p : Path) :
    (fs.makedirs d).isfile p = fs.isfile p := rfl

theorem isfile_addFile (fs : FS) (q p : Path) (c : Content) :
    (fs.addFile q c).isfile p = (fs.isfile p || decide (q = p)) := by
  simp [FS.isfile, FS.addFile, List.any_append]

theorem isfile_eq_false_iff (fs : FS) (p : Path) :
    fs.isfile p = false ↔ ∀ f ∈ fs.files, f.1 ≠ p := by
  simp [FS.isfile, List.any_eq_false]

theorem isfile_eq_true_iff (fs : FS) (p : Path) :
    fs.isfile p = true ↔ ∃ f ∈ fs.files, f.1 = p := by
  simp [FS.isfile, List.any_eq_true]

theorem filter_ne_append_single (l : List (Path × Content)) (p : Path) (c : Content)
    (h : ∀ f ∈ l, f.1 ≠ p) :
    (l ++ [(p, c)]).filter (fun f => !(f.1 = p : Bool)) = l := by
  rw [List.filter_append]
  have h1 : l.filter (fun f => !(f.1 = p : Bool)) = l := by
    apply List.filter_eq_self.mpr
    intro a ha
    simpa using h a ha
  have h2 : ([(p, c)] : List (Path × Content)).filter (fun f => !(f.1 = p : Bool)) = [] := by
    simp
  rw [h1, h2, List.append_nil]

theorem lookup_map_pair {α : Type} (names : List String) (f : String → α) (a : String)
    (ha : a ∈ names) : (names.map (fun x => (x, f x))).lookup a = some (f a) := by
  induction names with
  | nil => cases ha
  | cons n t ih =>
    by_cases han : a = n
    · subst han; simp [List.lookup]
    · rcases List.mem_cons.mp ha with h | h
      · exact absurd h han
      · simpa [List.lookup, beq_false_of_ne han] using ih h

theorem lookup_map_pair_none {α : Type} (names : List String) (f : String → α) (a : String)
    (ha : a ∉ names) : (names.map (fun x => (x, f x))).lookup a = none := by
  induction names with
  | nil => rfl
  | cons n t ih =>
    have han : a ≠ n := fun h => ha (h ▸ List.mem_cons_self n t)
    have hat : a ∉ t := fun h => ha (List.mem_cons_of_mem n h)
    simpa [List.lookup, beq_false_of_ne han] using ih hat

theorem sha256_mem_digestAlgos (algorithm : Option String) :
    "sha256" ∈ digestAlgos algorithm := by
  apply List.mem_append_left
  simp [default_algo_list]

theorem lookup_hexDigests_sha256 (H : String → Content → Str) (content : Content)
    (algorithm : Option String) :
    (hexDigests H content algorithm).lookup "sha256" = some (H "sha256" content) :=
  lookup_map_pair _ _ _ (sha256_mem_digestAlgos algorithm)

theorem lookup_hexDigests_notin (H : String → Content → Str) (content : Content)
    (a : String) (ha1 : a ∉ default_algo_list) (ha2 : a ∉ other_algo_list) :
    (hexDigests H content (some a)).lookup a = none := by
  apply lookup_map_pair_none
  have hda : digestAlgos (some a) =
      default_algo_list ++ (if other_algo_list.contains a then [a] else []) := rfl
  have hc : other_algo_list.contains a = false := by simpa using ha2
  rw [hda, hc]
  intro h
  rcases List.mem_append.mp h with h | h
  · exact ha1 h
  · simp at h

/-- Every successful branch of `_copy` reports the digest dictionary computed
by `_mktempfile`. -/
theorem copy_ok_dict (H : String → Content → Str) (cfg : Cfg) (env : PutEnv) (fs : FS)
    (content : Content) (extension : Str) (algorithm : Option String)
    (checksum : Option Str) (dict : List (String × Str)) (fp : Path) (dup : Bool)
    (fs' : FS)
    (h : copy H cfg env fs content extension algorithm checksum = (.ok (dict, fp, dup), fs')) :
    dict = hexDigests H content algorithm := by
  simp only [copy, mktempfile, moveStep] at h
  repeat' split at h
  all_goals simp_all

/-! ## C2 -/

/-- C2, corrected: for every store configuration and every successful `put`,
the identifier of the returned `HashAddress` is the hex digest computed by
sha256 over the stream's bytes — regardless of the configured primary
algorithm and of which other digests were computed.  (The source hardcodes
`hex_digest_dict["sha256"]` in `put` and `_copy`.) -/
theorem put_ok_id_is_sha256 (H : String → Content → Str) (cfg : Cfg) (env : PutEnv)
    (fs : FS) (content : Content) (extension : Str) (algorithm : Option String)
    (checksum : Option Str) (addr : HashAddress) (fs' : FS)
    (h : put H cfg env fs content extension algorithm checksum = (.ok addr, fs')) :
    addr.id = H "sha256" content := by
  unfold put at h
  rcases hc : copy H cfg env fs content extension algorithm checksum with ⟨r, fs2⟩
  rw [hc] at h
  cases r with
  | error e => cases h
  | ok v =>
    rcases v with ⟨dict, fp, dup⟩
    have hd : dict = hexDigests H content algorithm :=
      copy_ok_dict H cfg env fs content extension algorithm checksum dict fp dup fs2 hc
    cases h
    simp [hd, lookup_hexDigests_sha256]

/-- C2 witness: the amended theorem applied at a concrete successful put. -/
theorem put_ok_id_is_sha256_witness :
    ∃ addr fs', put hashlibABC cfgX envA fs0X abcBytes [] none none = (.ok addr, fs')
      ∧ addr.id = hashlibABC "sha256" abcBytes := by
  refine ⟨_, _, rfl, ?_⟩
  exact put_ok_id_is_sha256 hashlibABC cfgX envA fs0X abcBytes [] none none _ _ rfl

/-- C2 counterexample: a store configured with `algorithm="md5"` still returns
the sha256 digest as the identifier of a successful put of `"abc"` — not the
digest computed by the configured primary algorithm, which differs. -/
theorem put_md5_config_ignores_primary :
    ((put hashlibABC cfgMd5 envA fs0X abcBytes [] none none).1.toOption.map
      (fun a => a.id)) = some (hashlibABC "sha256" abcBytes)
    ∧ hashlibABC "sha256" abcBytes ≠ hashlibABC cfgMd5.algorithm abcBytes := by
  constructor
  · rfl
  · decide

/-! ## C6 -/

/-- C6, corrected: `delete(token)` is idempotent — it raises no error when the
token does not resolve — and during removal it silently swallows every
OS-level removal failure alike (file-not-found, permission, I/O), never
surfacing any of them; on a successful removal it prunes now-empty parent
directories.  (The source's `except OSError: pass` catches all `OSError`s,
so the model's `delete` returns a state unconditionally.) -/
theorem delete_never_raises (cfg : Cfg) (fs : FS) (tok : Str) :
    (realpath cfg fs tok = none → ∀ rm, delete cfg fs tok rm = fs)
    ∧ (∀ e : RmErr, delete cfg fs tok (some e) = fs)
    ∧ (∀ rp, realpath cfg fs tok = some rp →
        delete cfg fs tok none = remove_empty cfg (fs.removeFile rp) rp.dropLast) := by
  refine ⟨?_, ?_, ?_⟩
  · intro h rm
    unfold delete
    rw [h]
  · intro e
    unfold delete
    cases h : realpath cfg fs tok <;> simp
  · intro rp h
    unfold delete
    rw [h]

/-- C6 witness: the amended theorem applied at a concrete store — an I/O
failure during removal is swallowed and the call returns normally. -/
theorem delete_never_raises_witness :
    delete cfgX fsDup sha256abc (some RmErr.eio) = fsDup :=
  (delete_never_raises cfgX fsDup sha256abc).2.1 RmErr.eio

/-- C6 counterexample: the claim says a permission error during removal is
surfaced to the caller; in the code it is swallowed — `delete` on a resolvable
token whose `os.remove` fails with a permission error completes normally and
leaves the store unchanged (the file is still present). -/
theorem delete_swallows_eperm :
    delete cfgX fsDup sha256abc (some RmErr.eperm) = fsDup
    ∧ fsDup.isfile canonAbc = true := by
  constructor
  · rfl
  · decide

/-! ## C7 -/

/-- C7 (confirmed): `realpath` tries the candidates in a fixed order and
stops at the first success — (a) the token itself as an existing path,
(b) the token joined relative to the store root, (c) the token sharded as a
raw identifier with no extension, (d) the sharded identifier matched against
any extension variant on disk, first match in listing order — and when none
matches the result is `none`, not an exception (the return type is
`Option Path`). -/
theorem realpath_resolution_order (cfg : Cfg) (fs : FS) (file : Str) :
    (fs.isfile (splitSep file) = true → realpath cfg fs file = some (splitSep file))
    ∧ (fs.isfile (splitSep file) = false →
        fs.isfile (joinPath cfg.root file) = true →
        realpath cfg fs file = some (joinPath cfg.root file))
    ∧ (fs.isfile (splitSep file) = false →
        fs.isfile (joinPath cfg.root file) = false →
        fs.isfile (idpath cfg file []) = true →
        realpath cfg fs file = some (idpath cfg file []))
    ∧ (∀ q rest, fs.isfile (splitSep file) = false →
        fs.isfile (joinPath cfg.root file) = false →
        fs.isfile (idpath cfg file []) = false →
        globExt fs (idpath cfg file []) = q :: rest →
        realpath cfg fs file = some q)
    ∧ (fs.isfile (splitSep file) = false →
        fs.isfile (joinPath cfg.root file) = false →
        fs.isfile (idpath cfg file []) = false →
        globExt fs (idpath cfg file []) = [] →
        realpath cfg fs file = none) := by
  refine ⟨?_, ?_, ?_, ?_, ?_⟩
  · intro h1
    simp [realpath, h1]
  · intro h1 h2
    simp [realpath, h1, h2]
  · intro h1 h2 h3
    simp [realpath, h1, h2, h3]
  · intro q rest h1 h2 h3 h4
    simp [realpath, h1, h2, h3, h4]
  · intro h1 h2 h3 h4
    simp [realpath, h1, h2, h3, h4]

/-- C7 witness: the theorem applied at a store holding only an
extension-bearing variant of the identifier — resolution falls through
candidates (a)–(c) and succeeds on the extension match (d). -/
theorem realpath_resolution_order_witness :
    realpath cfgX fsExt sha256abc = some (idpath cfgX sha256abc ['t', 'x', 't']) :=
  (realpath_resolution_order cfgX fsExt sha256abc).2.2.2.1
    (idpath cfgX sha256abc ['t', 'x', 't']) [] (by decide) (by decide) (by decide)
    (by decide)

/-! ## C10 -/

/-- C10 (confirmed): a `put` with a checksum and an algorithm name outside
both the baseline digest set and the recognised extended set, when no file
exists at the canonical path, fails with the missing-key error (`KeyError`
from `hex_digests[algorithm]`), not a checksum mismatch; no file is placed at
the canonical path, and the staged temporary file is left behind (the
`KeyError` is raised before the cleanup `self.delete(fname)` that guards the
mismatch branch). -/
theorem put_unknown_algorithm_keyerror (H : String → Content → Str) (cfg : Cfg)
    (env : PutEnv) (fs : FS) (content : Content) (extension : Str) (a : String)
    (c : Str)
    (ha1 : a ∉ default_algo_list) (ha2 : a ∉ other_algo_list)
    (hnf : fs.isfile (idpath cfg (H "sha256" content) extension) = false)
    (htne : splitSep env.tmp ≠ idpath cfg (H "sha256" content) extension) :
    (put H cfg env fs content extension (some a) (some c)).1
      = .error (.keyError a)
    ∧ (put H cfg env fs content extension (some a) (some c)).2.isfile
        (splitSep env.tmp) = true
    ∧ (put H cfg env fs content extension (some a) (some c)).2.isfile
        (idpath cfg (H "sha256" content) extension) = false := by
  have hid : (hexDigests H content (some a)).lookup "sha256"
      = some (H "sha256" content) := lookup_hexDigests_sha256 H content (some a)
  have hlk : (hexDigests H content (some a)).lookup a = none :=
    lookup_hexDigests_notin H content a ha1 ha2
  have hcond : ((fs.addFile (splitSep env.tmp) content).makedirs
      (idpath cfg (H "sha256" content) extension).dropLast).isfile
      (idpath cfg (H "sha256" content) extension) = false := by
    rw [isfile_makedirs, isfile_addFile, hnf]
    simp [htne]
  have hcopy : copy H cfg env fs content extension (some a) (some c)
      = (.error (.keyError a),
          (fs.addFile (splitSep env.tmp) content).makedirs
            (idpath cfg (H "sha256" content) extension).dropLast) := by
    simp only [copy, mktempfile, hid, Option.getD_some, hcond, Bool.false_eq_true,
      if_false, hlk]
  rw [put, hcopy]
  refine ⟨rfl, ?_, ?_⟩
  · rw [isfile_makedirs, isfile_addFile]
    simp
  · exact hcond

/-- C10 witness: the theorem applied at the empty store with the unsupported
algorithm name `"crc32"`. -/
theorem put_unknown_algorithm_keyerror_witness :
    (put hashlibABC cfgX envA fs0X abcBytes [] (some "crc32") (some ['0', '0'])).1
      = .error (.keyError "crc32")
    ∧ (put hashlibABC cfgX envA fs0X abcBytes [] (some "crc32") (some ['0', '0'])).2.isfile
        (splitSep envA.tmp) = true :=
  have h := put_unknown_algorithm_keyerror hashlibABC cfgX envA fs0X abcBytes []
    "crc32" ['0', '0'] (by decide) (by decide) (by decide) (by decide)
  ⟨h.1, h.2.1⟩

/-! ## C4 -/

theorem splitAtLastDot_none (l : Str) (h : extsep ∉ l) : splitAtLastDot l = none := by
  induction l with
  | nil => rfl
  | cons c rest ih =>
    have hc : c ≠ extsep := fun hc => h (hc ▸ List.mem_cons_self c rest)
    have hr : extsep ∉ rest := fun hr => h (List.mem_cons_of_mem c hr)
    simp [splitAtLastDot, ih hr, hc]

theorem splitExtLeaf_no_dot (l : Str) (h : extsep ∉ l) : splitExtLeaf l = (l, []) := by
  simp [splitExtLeaf, splitAtLastDot_none l h]

theorem appendLast_nil (p : Path) (h : p ≠ []) : appendLast p [] = p := by
  rcases List.eq_nil_or_concat p with h0 | ⟨q, x, rfl⟩
  · exact absurd h0 h
  · simp [appendLast]

theorem shard_ne_nil (id : Str) (depth width : Nat) : shard id depth width ≠ [] := by
  simp [shard]

theorem issubdir_append (root y : Path) (h : y ≠ []) :
    issubdir (root ++ y) root = true := by
  have h1 : root.isPrefixOf (root ++ y) = true :=
    List.isPrefixOf_iff_prefix.mpr (List.prefix_append root y)
  have h3 : 0 < y.length := List.length_pos.mpr h
  simp only [issubdir, h1, Bool.true_and, decide_eq_true_eq, List.length_append]
  omega

theorem foldr_shard_concat (id : Str) (w : Nat) : ∀ d : Nat,
    ((List.range d).map (fun i => (id.drop (i * w)).take w)).foldr
      (fun a b => a ++ b) (id.drop (d * w)) = id := by
  intro d
  induction d with
  | zero => simp
  | succ d ih =>
    rw [List.range_succ, List.map_append, List.foldr_append]
    have hstep : ((List.range d).map (fun i => (id.drop (i * w)).take w)).foldr
        (fun a b => a ++ b) ((id.drop (d * w)).take w ++ id.drop ((d + 1) * w))
        = ((List.range d).map (fun i => (id.drop (i * w)).take w)).foldr
          (fun a b => a ++ b) (id.drop (d * w)) := by
      have hd : id.drop ((d + 1) * w) = (id.drop (d * w)).drop w := by
        rw [List.drop_drop]
        congr 1
        ring
      rw [hd, List.take_append_drop]
    simpa using hstep.trans ih

/-- C4 (confirmed): for every hex-digest identifier (no dot in it),
`unshard (idpath id) = id` — unshard strips the root, the extension and the
separators and concatenates the remaining segments — and `unshard` fails with
the invalid-path error for every path not rooted under the store. -/
theorem unshard_idpath_roundtrip (cfg : Cfg) (id : Str) (hdot : extsep ∉ id) :
    unshard cfg (idpath cfg id []) = .ok id
    ∧ ∀ p : Path, haspath cfg p = false →
        unshard cfg p =
          .error "Cannot unshard path: not a subdirectory of the root directory" := by
  constructor
  · have hsh : shard id cfg.depth cfg.width ≠ [] := shard_ne_nil id cfg.depth cfg.width
    have hidp : idpath cfg id [] = cfg.root ++ shard id cfg.depth cfg.width := by
      unfold idpath
      rw [show normExt [] = [] from rfl, appendLast_nil _ hsh]
    have hsub : haspath cfg (idpath cfg id []) = true := by
      rw [hidp]
      exact issubdir_append cfg.root _ hsh
    rw [unshard]
    rw [hsub]
    simp only [if_true]
    have hrel : relpath cfg (idpath cfg id []) = shard id cfg.depth cfg.width := by
      rw [hidp, relpath, List.drop_left]
    rw [hrel]
    unfold shard
    rw [List.dropLast_concat, List.getLastD_concat]
    have hleaf : extsep ∉ id.drop (cfg.depth * cfg.width) := by
      intro hmem
      exact hdot ((List.drop_sublist _ _).mem hmem)
    rw [splitExtLeaf_no_dot _ hleaf]
    rw [Except.ok.injEq]
    exact foldr_shard_concat id cfg.width cfg.depth
  · intro p hp
    rw [unshard, hp]
    simp

/-- C4 witness: the round trip at the sha256 digest of `"abc"` under the
default configuration, and the invalid-path failure at `/etc`. -/
theorem unshard_idpath_roundtrip_witness :
    unshard cfgX (idpath cfgX sha256abc []) = .ok sha256abc
    ∧ unshard cfgX [[], ['e', 't', 'c']] =
        .error "Cannot unshard path: not a subdirectory of the root directory" := by
  have h := unshard_idpath_roundtrip cfgX sha256abc (by decide)
  exact ⟨h.1, h.2 [[], ['e', 't', 'c']] (by decide)⟩

/-! ## C1 -/

/-- `delete` on a token that resolves as an existing path outside the root
removes just that file (no directory pruning). -/
theorem delete_resolved_tmp (cfg : Cfg) (fs : FS) (tok : Str)
    (h1 : fs.isfile (splitSep tok) = true)
    (h2 : haspath cfg (splitSep tok).dropLast = false) :
    delete cfg fs tok none = fs.removeFile (splitSep tok) := by
  unfold delete
  have hr : realpath cfg fs tok = some (splitSep tok) := by simp [realpath, h1]
  rw [hr]
  simp [remove_empty, h2]

/-- C1, corrected: when `algorithm` and `checksum` are both supplied, the
digest for that algorithm differs from `checksum`, and no file already exists
at the canonical path, `put` fails with the checksum-mismatch error and the
staged temporary copy is discarded — the store's file set is unchanged (no
new object file, no leftover temp file).  Shard directories created for the
canonical path before validation are not removed, and when an object already
exists at the canonical path the checksum is never validated (see the
counterexample). -/
theorem put_checksum_mismatch_clean (H : String → Content → Str) (cfg : Cfg)
    (env : PutEnv) (fs : FS) (content : Content) (extension : Str) (a : String)
    (c : Str)
    (hmem : a ∈ default_algo_list ∨ a ∈ other_algo_list)
    (hmm : H a content ≠ c)
    (hnf : fs.isfile (idpath cfg (H "sha256" content) extension) = false)
    (htne : splitSep env.tmp ≠ idpath cfg (H "sha256" content) extension)
    (htf : fs.isfile (splitSep env.tmp) = false)
    (hto : haspath cfg (splitSep env.tmp).dropLast = false) :
    (put H cfg env fs content extension (some a) (some c)).1
      = .error (.checksumMismatch a c (H a content))
    ∧ (put H cfg env fs content extension (some a) (some c)).2.files = fs.files := by
  have hid : (hexDigests H content (some a)).lookup "sha256"
      = some (H "sha256" content) := lookup_hexDigests_sha256 H content (some a)
  have hmem' : a ∈ digestAlgos (some a) := by
    have hda : digestAlgos (some a) =
        default_algo_list ++ (if other_algo_list.contains a then [a] else []) := rfl
    rcases hmem with h | h
    · exact List.mem_append_left _ h
    · have hc : other_algo_list.contains a = true := by simpa using h
      rw [hda, hc]
      simp
  have hlk : (hexDigests H content (some a)).lookup a = some (H a content) :=
    lookup_map_pair _ _ _ hmem'
  have hcond : ((fs.addFile (splitSep env.tmp) content).makedirs
      (idpath cfg (H "sha256" content) extension).dropLast).isfile
      (idpath cfg (H "sha256" content) extension) = false := by
    rw [isfile_makedirs, isfile_addFile, hnf]
    simp [htne]
  have htmp2 : ((fs.addFile (splitSep env.tmp) content).makedirs
      (idpath cfg (H "sha256" content) extension).dropLast).isfile
      (splitSep env.tmp) = true := by
    rw [isfile_makedirs, isfile_addFile]
    simp
  have hdel : delete cfg ((fs.addFile (splitSep env.tmp) content).makedirs
        (idpath cfg (H "sha256" content) extension).dropLast) env.tmp none
      = ((fs.addFile (splitSep env.tmp) content).makedirs
        (idpath cfg (H "sha256" content) extension).dropLast).removeFile
          (splitSep env.tmp) :=
    delete_resolved_tmp cfg _ env.tmp htmp2 hto
  have hcopy : copy H cfg env fs content extension (some a) (some c)
      = (.error (.checksumMismatch a c (H a content)),
          ((fs.addFile (splitSep env.tmp) content).makedirs
            (idpath cfg (H "sha256" content) extension).dropLast).removeFile
            (splitSep env.tmp)) := by
    simp only [copy, mktempfile, hid, Option.getD_some, hcond, Bool.false_eq_true,
      if_false, hlk, if_pos hmm, hdel]
  rw [put, hcopy]
  refine ⟨rfl, ?_⟩
  show ((fs.addFile (splitSep env.tmp) content).files).filter _ = fs.files
  rw [show (fs.addFile (splitSep env.tmp) content).files
      = fs.files ++ [(splitSep env.tmp, content)] from rfl]
  exact filter_ne_append_single fs.files (splitSep env.tmp) content
    ((isfile_eq_false_iff fs (splitSep env.tmp)).mp htf)

/-- C1 witness: the amended theorem at the empty store with a wrong md5
checksum — the error is raised and the file set is unchanged. -/
theorem put_checksum_mismatch_clean_witness :
    (put hashlibABC cfgX envA fs0X abcBytes [] (some "md5") (some ['0', '1'])).1
      = .error (.checksumMismatch "md5" ['0', '1'] (hashlibABC "md5" abcBytes))
    ∧ (put hashlibABC cfgX envA fs0X abcBytes [] (some "md5") (some ['0', '1'])).2.files
      = fs0X.files :=
  put_checksum_mismatch_clean hashlibABC cfgX envA fs0X abcBytes [] "md5" ['0', '1']
    (Or.inl (by decide)) (by decide) (by decide) (by decide) (by decide) (by decide)

/-- C1 counterexample: the claim as stated fails on two concrete points.
(i) With the object already present at its canonical path, a put with an
intentionally wrong md5 checksum does not fail at all — it succeeds as a
duplicate, because the source validates the checksum only inside the
`not os.path.isfile(filepath)` branch.  (ii) On an empty store the put does
fail, but the shard directory `/store/b` created by `makepath` before
validation remains — the store is not left entirely unchanged. -/
theorem put_checksum_mismatch_counterexample :
    ((put hashlibABC cfgX envB fsDup abcBytes [] (some "md5") (some ['0', '0'])).1.toOption.map
      (fun a => a.is_duplicate)) = some true
    ∧ hashlibABC "md5" abcBytes ≠ ['0', '0']
    ∧ (put hashlibABC cfgX envA fs0X abcBytes [] (some "md5") (some ['0', '0'])).1
        = .error (.checksumMismatch "md5" ['0', '0'] (hashlibABC "md5" abcBytes))
    ∧ (storeRoot ++ [['b']])
        ∈ (put hashlibABC cfgX envA fs0X abcBytes [] (some "md5") (some ['0', '0'])).2.dirs
    ∧ (storeRoot ++ [['b']]) ∉ fs0X.dirs := by
  refine ⟨rfl, by decide, rfl, by decide, by decide⟩

/-! ## C3 -/

/-- A put of fresh content (no file at the canonical path, relocation
succeeds): the full result, computed. -/
theorem put_fresh (H : String → Content → Str) (cfg : Cfg) (env : PutEnv) (fs : FS)
    (content : Content)
    (hok : env.moveOk = true)
    (hnf : fs.isfile (idpath cfg (H "sha256" content) []) = false)
    (htne : splitSep env.tmp ≠ idpath cfg (H "sha256" content) []) :
    put H cfg env fs content [] none none
      = (.ok ⟨H "sha256" content, relpath cfg (idpath cfg (H "sha256" content) []),
            idpath cfg (H "sha256" content) [], false, hexDigests H content none⟩,
          (((fs.addFile (splitSep env.tmp) content).makedirs
              (idpath cfg (H "sha256" content) []).dropLast).removeFile
            (splitSep env.tmp)).addFile (idpath cfg (H "sha256" content) []) content) := by
  have hid : (hexDigests H content none).lookup "sha256" = some (H "sha256" content) :=
    lookup_hexDigests_sha256 H content none
  have hcond : ((fs.addFile (splitSep env.tmp) content).makedirs
      (idpath cfg (H "sha256" content) []).dropLast).isfile
      (idpath cfg (H "sha256" content) []) = false := by
    rw [isfile_makedirs, isfile_addFile, hnf]
    simp [htne]
  have hcopy : copy H cfg env fs content [] none none
      = (.ok (hexDigests H content none, idpath cfg (H "sha256" content) [], false),
          (((fs.addFile (splitSep env.tmp) content).makedirs
              (idpath cfg (H "sha256" content) []).dropLast).removeFile
            (splitSep env.tmp)).addFile (idpath cfg (H "sha256" content) []) content) := by
    simp only [copy, mktempfile, moveStep, hid, Option.getD_some, hcond,
      Bool.false_eq_true, if_false, hok, if_true]
  rw [put, hcopy]
  simp [hid]

/-- A put of content whose object already sits at the canonical path: the
temp file is discarded, the result is a duplicate address. -/
theorem put_dup (H : String → Content → Str) (cfg : Cfg) (env : PutEnv) (fs : FS)
    (content : Content)
    (hdf : fs.isfile (idpath cfg (H "sha256" content) []) = true)
    (hto : haspath cfg (splitSep env.tmp).dropLast = false) :
    put H cfg env fs content [] none none
      = (.ok ⟨H "sha256" content, relpath cfg (idpath cfg (H "sha256" content) []),
            idpath cfg (H "sha256" content) [], true, hexDigests H content none⟩,
          ((fs.addFile (splitSep env.tmp) content).makedirs
            (idpath cfg (H "sha256" content) []).dropLast).removeFile
            (splitSep env.tmp)) := by
  have hid : (hexDigests H content none).lookup "sha256" = some (H "sha256" content) :=
    lookup_hexDigests_sha256 H content none
  have hcond : ((fs.addFile (splitSep env.tmp) content).makedirs
      (idpath cfg (H "sha256" content) []).dropLast).isfile
      (idpath cfg (H "sha256" content) []) = true := by
    rw [isfile_makedirs, isfile_addFile, hdf]
    simp
  have htmp2 : ((fs.addFile (splitSep env.tmp) content).makedirs
      (idpath cfg (H "sha256" content) []).dropLast).isfile
      (splitSep env.tmp) = true := by
    rw [isfile_makedirs, isfile_addFile]
    simp
  have hdel := delete_resolved_tmp cfg
    ((fs.addFile (splitSep env.tmp) content).makedirs
      (idpath cfg (H "sha256" content) []).dropLast) env.tmp htmp2 hto
  have hcopy : copy H cfg env fs content [] none none
      = (.ok (hexDigests H content none, idpath cfg (H "sha256" content) [], true),
          ((fs.addFile (splitSep env.tmp) content).makedirs
            (idpath cfg (H "sha256" content) []).dropLast).removeFile
            (splitSep env.tmp)) := by
    simp only [copy, mktempfile, hid, Option.getD_some, hcond, if_true, hdel]
  rw [put, hcopy]
  simp [hid]

/-- C3 (confirmed): putting the same content twice yields the same primary
identifier both times; the second call reports `is_duplicate = true`,
discards its temporary file without writing (the file set is unchanged),
returns the address of the existing object, and exactly one copy of the
content is on disk. -/
theorem put_twice_duplicate (H : String → Content → Str) (cfg : Cfg)
    (env1 env2 : PutEnv) (fs : FS) (content : Content)
    (h1ok : env1.moveOk = true)
    (hnf : fs.isfile (idpath cfg (H "sha256" content) []) = false)
    (ht1ne : splitSep env1.tmp ≠ idpath cfg (H "sha256" content) [])
    (ht1f : fs.isfile (splitSep env1.tmp) = false)
    (ht2f : fs.isfile (splitSep env2.tmp) = false)
    (ht2ne : splitSep env2.tmp ≠ idpath cfg (H "sha256" content) [])
    (ht2o : haspath cfg (splitSep env2.tmp).dropLast = false)
    (hnc : ∀ f ∈ fs.files, f.2 ≠ content) :
    ∃ a1 a2 : HashAddress,
      (put H cfg env1 fs content [] none none).1 = .ok a1
      ∧ (put H cfg env2 (put H cfg env1 fs content [] none none).2 content [] none none).1
          = .ok a2
      ∧ a1.id = a2.id
      ∧ a1.is_duplicate = false
      ∧ a2.is_duplicate = true
      ∧ a2.abspath = idpath cfg (H "sha256" content) []
      ∧ (put H cfg env2 (put H cfg env1 fs content [] none none).2 content [] none none).2.files
          = (put H cfg env1 fs content [] none none).2.files
      ∧ ((put H cfg env2 (put H cfg env1 fs content [] none none).2 content [] none
            none).2.files.filter (fun f => f.2 = content)).length = 1 := by
  have h1 := put_fresh H cfg env1 fs content h1ok hnf ht1ne
  set fp := idpath cfg (H "sha256" content) [] with hfp
  have hfiles1 : (put H cfg env1 fs content [] none none).2.files
      = fs.files ++ [(fp, content)] := by
    rw [h1]
    show ((fs.files ++ [(splitSep env1.tmp, content)]).filter _) ++ [(fp, content)]
      = fs.files ++ [(fp, content)]
    rw [filter_ne_append_single fs.files (splitSep env1.tmp) content
      ((isfile_eq_false_iff fs (splitSep env1.tmp)).mp ht1f)]
  set fs1 := (put H cfg env1 fs content [] none none).2 with hfs1
  have hdf1 : fs1.isfile fp = true := by
    rw [isfile_eq_true_iff, hfiles1]
    exact ⟨(fp, content), by simp⟩
  have h2 := put_dup H cfg env2 fs1 content hdf1 ht2o
  have hfiles2 : (put H cfg env2 fs1 content [] none none).2.files = fs1.files := by
    rw [h2]
    show (fs1.files ++ [(splitSep env2.tmp, content)]).filter _ = fs1.files
    apply filter_ne_append_single
    intro f hf
    rw [hfiles1] at hf
    rcases List.mem_append.mp hf with hf | hf
    · have := (isfile_eq_false_iff fs (splitSep env2.tmp)).mp ht2f f hf
      exact fun h => this h
    · have : f = (fp, content) := by simpa using hf
      rw [this]
      exact fun h => ht2ne (h ▸ rfl)
  refine ⟨⟨H "sha256" content, relpath cfg fp, fp, false, hexDigests H content none⟩,
      ⟨H "sha256" content, relpath cfg fp, fp, true, hexDigests H content none⟩,
      ?_, ?_, rfl, rfl, rfl, rfl, hfiles2, ?_⟩
  · rw [h1]
  · rw [h2]
  · rw [hfiles2, hfiles1, List.filter_append]
    have hz : fs.files.filter (fun f => (f.2 = content : Bool)) = [] := by
      apply List.filter_eq_nil_iff.mpr
      intro a ha
      simpa using hnc a ha
    rw [hz]
    simp

/-- C3 witness: the double put of `"abc"` on the empty store. -/
theorem put_twice_duplicate_witness :
    ∃ a1 a2 : HashAddress,
      (put hashlibABC cfgX envA fs0X abcBytes [] none none).1 = .ok a1
      ∧ (put hashlibABC cfgX envB
            (put hashlibABC cfgX envA fs0X abcBytes [] none none).2 abcBytes [] none
            none).1 = .ok a2
      ∧ a1.id = a2.id
      ∧ a1.is_duplicate = false
      ∧ a2.is_duplicate = true
      ∧ a2.abspath = idpath cfgX (hashlibABC "sha256" abcBytes) []
      ∧ (put hashlibABC cfgX envB
            (put hashlibABC cfgX envA fs0X abcBytes [] none none).2 abcBytes [] none
            none).2.files
          = (put hashlibABC cfgX envA fs0X abcBytes [] none none).2.files
      ∧ ((put hashlibABC cfgX envB
            (put hashlibABC cfgX envA fs0X abcBytes [] none none).2 abcBytes [] none
            none).2.files.filter (fun f => f.2 = abcBytes)).length = 1 :=
  put_twice_duplicate hashlibABC cfgX envA envB fs0X abcBytes (by decide) (by decide)
    (by decide) (by decide) (by decide) (by decide) (by decide) (by decide)

/-! ## C5 -/

theorem splitSep_cons (c : Char) (rest : Str) :
    splitSep (c :: rest) = match splitSep rest with
      | [] => [[]]
      | h :: t => if c = sep then [] :: h :: t else (c :: h) :: t := rfl

theorem splitSep_ne_nil (s : Str) : splitSep s ≠ [] := by
  induction s with
  | nil => simp [splitSep]
  | cons c rest ih =>
    rw [splitSep_cons]
    rcases hs : splitSep rest with _ | ⟨h, t⟩
    · simp
    · show ¬(if c = sep then [] :: h :: t else (c :: h) :: t) = []
      split <;> simp

theorem splitSep_no_sep (s : Str) (h : sep ∉ s) : splitSep s = [s] := by
  induction s with
  | nil => rfl
  | cons c rest ih =>
    have hc : c ≠ sep := fun hc => h (hc ▸ List.mem_cons_self c rest)
    have hr : sep ∉ rest := fun hr => h (List.mem_cons_of_mem c hr)
    rw [splitSep_cons, ih hr]
    simp [hc]

theorem splitSep_append_sep (a b : Str) (h : sep ∉ a) :
    splitSep (a ++ sep :: b) = a :: splitSep b := by
  induction a with
  | nil =>
    show splitSep (sep :: b) = [] :: splitSep b
    rw [splitSep_cons]
    rcases hs : splitSep b with _ | ⟨x, t⟩
    · exact absurd hs (splitSep_ne_nil b)
    · show (if sep = sep then [] :: x :: t else (sep :: x) :: t) = [] :: x :: t
      simp
  | cons c rest ih =>
    have hc : c ≠ sep := fun hc => h (hc ▸ List.mem_cons_self c rest)
    have hr : sep ∉ rest := fun hr => h (List.mem_cons_of_mem c hr)
    show splitSep (c :: (rest ++ sep :: b)) = (c :: rest) :: splitSep b
    rw [splitSep_cons, ih hr]
    simp [hc]

theorem splitSep_joinSep (p : Path) (hne : p ≠ []) (hsep : ∀ x ∈ p, sep ∉ x) :
    splitSep (joinSep p) = p := by
  induction p with
  | nil => exact absurd rfl hne
  | cons x rest ih =>
    cases rest with
    | nil => exact splitSep_no_sep x (hsep x (List.mem_cons_self x []))
    | cons y t =>
      show splitSep (x ++ sep :: joinSep (y :: t)) = x :: y :: t
      rw [splitSep_append_sep x _ (hsep x (List.mem_cons_self x _))]
      rw [ih (by simp) (fun z hz => hsep z (List.mem_cons_of_mem x hz))]

theorem sep_notin_shard (id : Str) (depth width : Nat) (h : sep ∉ id) :
    ∀ x ∈ shard id depth width, sep ∉ x := by
  intro x hx hcx
  unfold shard at hx
  rcases List.mem_append.mp hx with hx | hx
  · rcases List.mem_map.mp hx with ⟨i, _, rfl⟩
    exact h ((List.drop_sublist _ _).mem ((List.take_sublist _ _).mem hcx))
  · have : x = id.drop (depth * width) := by simpa using hx
    exact h ((List.drop_sublist _ _).mem (this ▸ hcx))

theorem sep_notin_normExt (e : Str) (h : sep ∉ e) : sep ∉ normExt e := by
  unfold normExt
  split
  · simp
  · split
    · exact h
    · intro hc
      rcases List.mem_cons.mp hc with hc | hc
      · exact absurd hc.symm (by decide)
      · exact h hc

theorem sep_notin_idpath (cfg : Cfg) (id ext : Str)
    (hroot : ∀ x ∈ cfg.root, sep ∉ x) (hdig : sep ∉ id) (hext : sep ∉ ext) :
    ∀ x ∈ idpath cfg id ext, sep ∉ x := by
  intro x hx
  unfold idpath appendLast at hx
  rcases List.mem_append.mp hx with hx | hx
  · exact hroot x hx
  · rcases List.mem_append.mp hx with hx | hx
    · exact sep_notin_shard id cfg.depth cfg.width hdig x
        ((List.dropLast_sublist _).mem hx)
    · have hxe : x = (shard id cfg.depth cfg.width).getLastD [] ++ normExt ext := by
        simpa using hx
      rw [hxe]
      intro hc
      rcases List.mem_append.mp hc with hc | hc
      · rw [show (shard id cfg.depth cfg.width).getLastD []
            = id.drop (cfg.depth * cfg.width) from by
              unfold shard; rw [List.getLastD_concat]] at hc
        exact hdig ((List.drop_sublist _ _).mem hc)
      · exact sep_notin_normExt ext hext hc

theorem idpath_ne_nil (cfg : Cfg) (id ext : Str) : idpath cfg id ext ≠ [] := by
  unfold idpath appendLast
  simp

theorem files_removeEmptyGo (root : Path) :
    ∀ (fuel : Nat) (fs : FS) (sub : Path),
      (removeEmptyGo root fuel fs sub).files = fs.files := by
  intro fuel
  induction fuel with
  | zero => intro fs sub; rfl
  | succ n ih =>
    intro fs sub
    unfold removeEmptyGo
    split
    · rfl
    · split
      · rfl
      · exact ih (fs.rmdir sub) sub.dropLast

theorem files_remove_empty (cfg : Cfg) (fs : FS) (sub : Path) :
    (remove_empty cfg fs sub).files = fs.files := by
  unfold remove_empty
  split
  · exact files_removeEmptyGo cfg.root _ fs sub
  · rfl

theorem isfile_of_files_eq (fs gs : FS) (h : fs.files = gs.files) (p : Path) :
    fs.isfile p = gs.isfile p := by
  unfold FS.isfile
  rw [h]

theorem filter_ne_of_isfile_false (fs : FS) (p : Path) (h : fs.isfile p = false) :
    fs.files.filter (fun f => !(f.1 = p : Bool)) = fs.files := by
  apply List.filter_eq_self.mpr
  intro a ha
  simpa using (isfile_eq_false_iff fs p).mp h a ha

/-- The failure branch of `moveStep`: both the canonical target (if created)
and the temporary file are deleted, and the error carries the cause. -/
theorem moveStep_failure (cfg : Cfg) (env : PutEnv) (content : Content)
    (dict : List (String × Str)) (fp : Path) (fname : Str) (fs2 : FS)
    (hmv : env.moveOk = false)
    (hfpne : fp ≠ [])
    (hfpsep : ∀ x ∈ fp, sep ∉ x)
    (htne : splitSep fname ≠ fp)
    (hto : haspath cfg (splitSep fname).dropLast = false)
    (hnf2 : fs2.isfile fp = false)
    (htp2 : fs2.isfile (splitSep fname) = true) :
    (moveStep cfg env content dict fp fname fs2).1 = .error (.moveFailure env.moveCause)
    ∧ (moveStep cfg env content dict fp fname fs2).2.files
        = fs2.files.filter (fun f => !(f.1 = splitSep fname : Bool)) := by
  unfold moveStep
  rcases hdc : env.moveDstCreated with _ | _
  · simp only [hmv, hdc, Bool.false_eq_true, if_false, hnf2]
    rw [delete_resolved_tmp cfg fs2 fname htp2 hto]
    exact ⟨trivial, rfl⟩
  · have hA : (fs2.addFile fp content).isfile fp = true := by
      rw [isfile_addFile]
      simp
    simp only [hmv, hdc, Bool.false_eq_true, if_false, if_true, hA]
    have hrt : splitSep (joinSep fp) = fp := splitSep_joinSep fp hfpne hfpsep
    have hreal : realpath cfg (fs2.addFile fp content) (joinSep fp) = some fp := by
      simp [realpath, hrt, hA]
    have hdel1 : delete cfg (fs2.addFile fp content) (joinSep fp) none
        = remove_empty cfg ((fs2.addFile fp content).removeFile fp) fp.dropLast := by
      unfold delete
      rw [hreal]
    rw [hdel1]
    set fsB := remove_empty cfg ((fs2.addFile fp content).removeFile fp) fp.dropLast
      with hfsB
    have hBfiles : fsB.files = fs2.files := by
      rw [hfsB, files_remove_empty]
      show (fs2.files ++ [(fp, content)]).filter _ = fs2.files
      rw [List.filter_append]
      have h1 := filter_ne_of_isfile_false fs2 fp hnf2
      have h2 : ([(fp, content)] : List (Path × Content)).filter
          (fun f => !(f.1 = fp : Bool)) = [] := by simp
      rw [h1, h2, List.append_nil]
    have htpB : fsB.isfile (splitSep fname) = true := by
      rw [isfile_of_files_eq fsB fs2 hBfiles]
      exact htp2
    rw [delete_resolved_tmp cfg fsB fname htpB hto]
    refine ⟨trivial, ?_⟩
    show fsB.files.filter _ = _
    rw [hBfiles]

/-- C5 (confirmed): for every put whose relocation of the temporary file into
the canonical path fails, the engine removes both the canonical target (if
one was created) and the temporary file, and fails with the wrapping error
carrying the underlying cause; afterwards there is no file at the canonical
path, no temp file, and the store's file set is exactly as before the put. -/
theorem put_move_failure_cleanup (H : String → Content → Str) (cfg : Cfg)
    (env : PutEnv) (fs : FS) (content : Content) (extension : Str)
    (algorithm : Option String) (checksum : Option Str)
    (hmv : env.moveOk = false)
    (hval : ∀ a c, algorithm = some a → checksum = some c →
      (hexDigests H content algorithm).lookup a = some c)
    (hnf : fs.isfile (idpath cfg (H "sha256" content) extension) = false)
    (htne : splitSep env.tmp ≠ idpath cfg (H "sha256" content) extension)
    (htf : fs.isfile (splitSep env.tmp) = false)
    (hto : haspath cfg (splitSep env.tmp).dropLast = false)
    (hroot : ∀ x ∈ cfg.root, sep ∉ x)
    (hdig : sep ∉ H "sha256" content)
    (hext : sep ∉ extension) :
    (put H cfg env fs content extension algorithm checksum).1
      = .error (.moveFailure env.moveCause)
    ∧ (put H cfg env fs content extension algorithm checksum).2.files = fs.files
    ∧ (put H cfg env fs content extension algorithm checksum).2.isfile
        (idpath cfg (H "sha256" content) extension) = false
    ∧ (put H cfg env fs content extension algorithm checksum).2.isfile
        (splitSep env.tmp) = false := by
  have hid : (hexDigests H content algorithm).lookup "sha256"
      = some (H "sha256" content) := lookup_hexDigests_sha256 H content algorithm
  set fp := idpath cfg (H "sha256" content) extension with hfp
  set fs2 := (fs.addFile (splitSep env.tmp) content).makedirs fp.dropLast with hfs2
  have hcond : fs2.isfile fp = false := by
    rw [hfs2, isfile_makedirs, isfile_addFile, hnf]
    simp [htne]
  have htp2 : fs2.isfile (splitSep env.tmp) = true := by
    rw [hfs2, isfile_makedirs, isfile_addFile]
    simp
  have hms := moveStep_failure cfg env content (hexDigests H content algorithm) fp
    env.tmp fs2 hmv (hfp ▸ idpath_ne_nil cfg _ extension)
    (hfp ▸ sep_notin_idpath cfg _ extension hroot hdig hext) htne hto hcond htp2
  have hcopy1 : (copy H cfg env fs content extension algorithm checksum)
      = moveStep cfg env content (hexDigests H content algorithm) fp env.tmp fs2 := by
    rcases algorithm with _ | a
    · simp only [copy, mktempfile, hid, Option.getD_some, hcond, Bool.false_eq_true,
        if_false, hfs2, hfp]
    · rcases checksum with _ | c
      · simp only [copy, mktempfile, hid, Option.getD_some, hcond, Bool.false_eq_true,
          if_false, hfs2, hfp]
      · have hl := hval a c rfl rfl
        simp only [copy, mktempfile, hid, Option.getD_some, hcond, Bool.false_eq_true,
          if_false, hl, ne_eq, not_true_eq_false, if_neg, hfs2, hfp]
  have hfiles : (moveStep cfg env content (hexDigests H content algorithm) fp env.tmp
      fs2).2.files = fs.files := by
    rw [hms.2, hfs2]
    show ((fs.addFile (splitSep env.tmp) content).files).filter _ = fs.files
    rw [show (fs.addFile (splitSep env.tmp) content).files
        = fs.files ++ [(splitSep env.tmp, content)] from rfl]
    exact filter_ne_append_single fs.files (splitSep env.tmp) content
      ((isfile_eq_false_iff fs (splitSep env.tmp)).mp htf)
  have hput : put H cfg env fs content extension algorithm checksum
      = (.error (.moveFailure env.moveCause),
          (moveStep cfg env content (hexDigests H content algorithm) fp env.tmp fs2).2) := by
    rw [put, hcopy1]
    rcases hmsv : moveStep cfg env content (hexDigests H content algorithm) fp env.tmp
      fs2 with ⟨r, fsr⟩
    have : r = .error (.moveFailure env.moveCause) := by
      have := hms.1
      rw [hmsv] at this
      exact this
    rw [this]
  rw [hput]
  refine ⟨rfl, hfiles, ?_, ?_⟩
  · show (moveStep cfg env content _ fp env.tmp fs2).2.isfile fp = false
    rw [show ((moveStep cfg env content (hexDigests H content algorithm) fp env.tmp
        fs2).2).isfile fp = fs.isfile fp from
      isfile_of_files_eq _ fs hfiles fp]
    exact hnf
  · rw [show ((moveStep cfg env content (hexDigests H content algorithm) fp env.tmp
        fs2).2).isfile (splitSep env.tmp) = fs.isfile (splitSep env.tmp) from
      isfile_of_files_eq _ fs hfiles (splitSep env.tmp)]
    exact htf

/-- C5 witness: the theorem at the empty store with an injected relocation
failure (`envF`). -/
theorem put_move_failure_cleanup_witness :
    (put hashlibABC cfgX envF fs0X abcBytes [] none none).1
      = .error (.moveFailure "disk full")
    ∧ (put hashlibABC cfgX envF fs0X abcBytes [] none none).2.files = fs0X.files :=
  have h := put_move_failure_cleanup hashlibABC cfgX envF fs0X abcBytes [] none none
    (by decide) (fun a c ha _ => by cases ha) (by decide) (by decide) (by decide)
    (by decide) (by decide) (by decide) (by decide)
  ⟨h.1, h.2.1⟩

/-! ## C8 -/

theorem entry_iff_mem_paths (fs : FS) (q : Path) : FS.entry fs q ↔ q ∈ fs.paths := by
  unfold FS.entry FS.paths
  rw [List.mem_append, List.mem_append, List.mem_map]
  constructor
  · rintro (⟨c, hc⟩ | h | h)
    · exact Or.inl (Or.inl ⟨(q, c), hc, rfl⟩)
    · exact Or.inl (Or.inr h)
    · exact Or.inr h
  · rintro ((⟨f, hf, hq⟩ | h) | h)
    · exact Or.inl ⟨f.2, by rw [← hq]; exact hf⟩
    · exact Or.inr (Or.inl h)
    · exact Or.inr (Or.inr h)

theorem hasChild_iff (fs : FS) (d : Path) :
    fs.hasChild d = true ↔ ∃ q, FS.entry fs q ∧ q ≠ [] ∧ q.dropLast = d := by
  unfold FS.hasChild FS.entry
  simp only [Bool.or_eq_true, List.any_eq_true, Bool.and_eq_true,
    Bool.not_eq_eq_eq_not, Bool.not_true, List.isEmpty_eq_false, decide_eq_true_eq]
  constructor
  · rintro ((⟨f, hf, hne, hdl⟩ | ⟨x, hx, hne, hdl⟩) | ⟨x, hx, hne, hdl⟩)
    · exact ⟨f.1, Or.inl ⟨f.2, hf⟩, hne, hdl⟩
    · exact ⟨x, Or.inr (Or.inl hx), hne, hdl⟩
    · exact ⟨x, Or.inr (Or.inr hx), hne, hdl⟩
  · rintro ⟨q, ⟨c, hc⟩ | h | h, hne, hdl⟩
    · exact Or.inl (Or.inl ⟨(q, c), hc, hne, hdl⟩)
    · exact Or.inl (Or.inr ⟨q, h, hne, hdl⟩)
    · exact Or.inr ⟨q, h, hne, hdl⟩

theorem mem_dirs_rmdir (fs : FS) (d q : Path) :
    q ∈ (fs.rmdir d).dirs ↔ q ∈ fs.dirs ∧ q ≠ d := by
  unfold FS.rmdir
  simp [List.mem_filter]

theorem entry_rmdir (fs : FS) (d q : Path) (h : FS.entry (fs.rmdir d) q) :
    FS.entry fs q := by
  rcases h with h | h | h
  · exact Or.inl h
  · exact Or.inr (Or.inl ((mem_dirs_rmdir fs d q).mp h).1)
  · exact Or.inr (Or.inr h)

theorem dropLast_take_succ (q : Path) (n : Nat) (h : n + 1 ≤ q.length) :
    (q.take (n + 1)).dropLast = q.take n := by
  rw [List.dropLast_eq_take, List.length_take, List.take_take]
  congr 1
  omega

theorem take_ne_nil_of_pos (q : Path) (k : Nat) (h1 : 0 < k) (h2 : k ≤ q.length) :
    q.take k ≠ [] := by
  intro h
  have := congrArg List.length h
  rw [List.length_take] at this
  simp only [List.length_nil] at this
  omega

theorem proper_to_take (d q : Path) (h : d <+: q) (hne : d ≠ q) :
    d = q.take d.length ∧ d.length < q.length := by
  have h1 : d = q.take d.length := List.prefix_iff_eq_take.mp h
  have h2 : d.length ≤ q.length := h.length_le
  refine ⟨h1, ?_⟩
  rcases Nat.lt_or_ge d.length q.length with h3 | h3
  · exact h3
  · have : d.length = q.length := le_antisymm h2 h3
    rw [h1, this, List.take_length] at hne
    exact absurd rfl hne

/-- Under well-formedness, a childless directory has no file strictly below
it. -/
theorem no_file_below_of_no_child (fs : FS) (sub : Path) (hWF : WF fs)
    (hnc : fs.hasChild sub = false) :
    ∀ q c, (q, c) ∈ fs.files → ¬(sub <+: q ∧ sub ≠ q) := by
  rintro q c hqc ⟨hpre, hne⟩
  rcases proper_to_take sub q hpre hne with ⟨hsub, hlt⟩
  have hmem : q ∈ fs.files.map (fun f => f.1) := List.mem_map.mpr ⟨(q, c), hqc, rfl⟩
  have hchild : fs.hasChild sub = true := by
    rw [hasChild_iff]
    rcases Nat.lt_or_ge (sub.length + 1) q.length with hx | hx
    · refine ⟨q.take (sub.length + 1), Or.inr (Or.inl (hWF q hmem _ hx (by omega))),
        take_ne_nil_of_pos q _ (by omega) (by omega), ?_⟩
      rw [dropLast_take_succ q sub.length (by omega), ← hsub]
    · have hxe : sub.length + 1 = q.length := by omega
      refine ⟨q, Or.inl ⟨c, hqc⟩, ?_, ?_⟩
      · intro hq
        rw [hq] at hxe
        simp at hxe
      · rw [List.dropLast_eq_take, ← hxe]
        simpa using hsub.symm
  rw [hnc] at hchild
  cases hchild

theorem WF_rmdir (fs : FS) (sub : Path) (hWF : WF fs)
    (hnc : fs.hasChild sub = false) : WF (fs.rmdir sub) := by
  intro p hp k hk1 hk2
  rw [mem_dirs_rmdir]
  have hp' : p ∈ fs.files.map (fun f => f.1) := by
    simpa [FS.rmdir] using hp
  refine ⟨hWF p hp' k hk1 hk2, ?_⟩
  intro hq
  rcases List.mem_map.mp hp' with ⟨f, hf, rfl⟩
  refine no_file_below_of_no_child fs sub hWF hnc f.1 f.2 hf ⟨?_, ?_⟩
  · rw [← hq]
    exact List.take_prefix k f.1
  · rw [← hq]
    intro h
    have := congrArg List.length h
    rw [List.length_take] at this
    omega

theorem dirs_removeEmptyGo_subset (root : Path) :
    ∀ (fuel : Nat) (fs : FS) (sub : Path) (d : Path),
      d ∈ (removeEmptyGo root fuel fs sub).dirs → d ∈ fs.dirs := by
  intro fuel
  induction fuel with
  | zero => intro fs sub d h; exact h
  | succ n ih =>
    intro fs sub d h
    unfold removeEmptyGo at h
    split at h
    · exact h
    · split at h
      · exact h
      · exact ((mem_dirs_rmdir fs sub d).mp (ih (fs.rmdir sub) sub.dropLast d h)).1

theorem root_mem_removeEmptyGo (root : Path) :
    ∀ (fuel : Nat) (fs : FS) (sub : Path),
      root ∈ fs.dirs → root ∈ (removeEmptyGo root fuel fs sub).dirs := by
  intro fuel
  induction fuel with
  | zero => intro fs sub h; exact h
  | succ n ih =>
    intro fs sub h
    unfold removeEmptyGo
    split
    · exact h
    · split
      · exact h
      · rename_i hsub _
        exact ih (fs.rmdir sub) sub.dropLast
          ((mem_dirs_rmdir fs sub root).mpr ⟨h, fun he => hsub he.symm⟩)

theorem links_removeEmptyGo (root : Path) :
    ∀ (fuel : Nat) (fs : FS) (sub : Path),
      (removeEmptyGo root fuel fs sub).links = fs.links := by
  intro fuel
  induction fuel with
  | zero => intro fs sub; rfl
  | succ n ih =>
    intro fs sub
    unfold removeEmptyGo
    split
    · rfl
    · split
      · rfl
      · exact ih (fs.rmdir sub) sub.dropLast

/-- Directories having a file strictly below them survive the upward
cleanup walk. -/
theorem filedirs_removeEmptyGo (root : Path) :
    ∀ (fuel : Nat) (fs : FS) (sub : Path), WF fs →
      ∀ d, d ∈ fs.dirs → (∃ q c, (q, c) ∈ fs.files ∧ d <+: q ∧ d ≠ q) →
        d ∈ (removeEmptyGo root fuel fs sub).dirs := by
  intro fuel
  induction fuel with
  | zero => intro fs sub _ d hd _; exact hd
  | succ n ih =>
    intro fs sub hWF d hd hq
    unfold removeEmptyGo
    split
    · exact hd
    · split
      · exact hd
      · rename_i hcond
        rcases hq with ⟨q, c, hqc, hpre, hne⟩
        have hnc : fs.hasChild sub = false := by
          cases h1 : fs.hasChild sub with
          | false => rfl
          | true => rw [h1] at hcond; simp at hcond
        have hdsub : d ≠ sub := by
          intro he
          exact no_file_below_of_no_child fs sub hWF hnc q c hqc (he ▸ ⟨hpre, hne⟩)
        exact ih (fs.rmdir sub) sub.dropLast (WF_rmdir fs sub hWF hnc) d
          ((mem_dirs_rmdir fs sub d).mpr ⟨hd, hdsub⟩)
          ⟨q, c, hqc, hpre, hne⟩

/-- Every directory removed by the cleanup walk was neither a symlink nor the
root. -/
theorem removed_safe_removeEmptyGo (root : Path) :
    ∀ (fuel : Nat) (fs : FS) (sub : Path) (d : Path),
      d ∈ fs.dirs → d ∉ (removeEmptyGo root fuel fs sub).dirs →
      fs.islink d = false ∧ d ≠ root := by
  intro fuel
  induction fuel with
  | zero => intro fs sub d hd hnd; exact absurd hd hnd
  | succ n ih =>
    intro fs sub d hd hnd
    unfold removeEmptyGo at hnd
    split at hnd
    · exact absurd hd hnd
    · split at hnd
      · exact absurd hd hnd
      · rename_i hsub hcond
        have hlnk : fs.islink sub = false := by
          revert hcond
          cases h1 : fs.hasChild sub <;> cases h2 : fs.islink sub <;> simp
        by_cases hds : d = sub
        · subst hds
          exact ⟨hlnk, fun h => hsub h⟩
        · have := ih (fs.rmdir sub) sub.dropLast d
            ((mem_dirs_rmdir fs sub d).mpr ⟨hd, hds⟩) hnd
          exact ⟨this.1, this.2⟩

theorem removeEmptyGo_succ (root : Path) (f : Nat) (fs : FS) (sub : Path) :
    removeEmptyGo root (f + 1) fs sub =
      if sub = root then fs
      else if fs.hasChild sub || fs.islink sub then fs
      else removeEmptyGo root f (fs.rmdir sub) sub.dropLast := rfl

theorem dropLast_take_eq (q : Path) (j : Nat) (hj : j ≤ q.length - 1) :
    q.dropLast.take j = q.take j := by
  rw [List.dropLast_eq_take, List.take_take]
  congr 1
  omega

theorem rp_not_in_removeFile (fs : FS) (rp : Path) (c : Content) :
    (rp, c) ∉ (fs.removeFile rp).files := by
  unfold FS.removeFile
  intro h
  rcases List.mem_filter.mp h with ⟨_, hc⟩
  simp at hc

/-- The cleanup walk removes the whole ancestor chain when every chain
directory's only entry is the next chain element. -/
theorem chain_removed_removeEmptyGo (root : Path) :
    ∀ (m fuel : Nat) (fs : FS) (sub : Path),
      m ≤ fuel →
      sub.length = root.length + m →
      root <+: sub →
      (∀ k, k < sub.length → root.length < k →
        ∀ q, FS.entry fs q → q ≠ [] → q.dropLast = sub.take k → q = sub.take (k + 1)) →
      (sub = root ∨ fs.hasChild sub = false) →
      (∀ k, k ≤ sub.length → root.length < k →
        (∀ c, (sub.take k, c) ∉ fs.files) ∧ sub.take k ∉ fs.links) →
      ∀ k, k ≤ sub.length → root.length < k →
        sub.take k ∉ (removeEmptyGo root fuel fs sub).dirs := by
  intro m
  induction m with
  | zero =>
    intro fuel fs sub hfuel hlen hpre hOnly hleaf hNFL k hk1 hk2
    omega
  | succ m ih =>
    intro fuel fs sub hfuel hlen hpre hOnly hleaf hNFL k hk1 hk2
    have hsubroot : sub ≠ root := by
      intro h
      rw [h] at hlen
      omega
    rcases hleaf with h | hnc
    · exact absurd h hsubroot
    have hlnk : fs.islink sub = false := by
      have h := (hNFL sub.length (le_refl _) (by omega)).2
      rw [List.take_length] at h
      unfold FS.islink
      simpa using h
    rcases fuel with _ | f
    · omega
    rw [removeEmptyGo_succ, if_neg hsubroot]
    have hcond : (fs.hasChild sub || fs.islink sub) = false := by
      rw [hnc, hlnk]
      rfl
    rw [hcond]
    simp only [Bool.false_eq_true, if_false]
    have hsublen : 0 < sub.length := by omega
    have htake : ∀ j, j ≤ sub.length - 1 → sub.dropLast.take j = sub.take j :=
      fun j hj => dropLast_take_eq sub j hj
    have hlen' : sub.dropLast.length = root.length + m := by
      rw [List.length_dropLast]
      omega
    have hpre' : root <+: sub.dropLast := by
      rw [List.prefix_iff_eq_take]
      rw [htake root.length (by omega)]
      exact List.prefix_iff_eq_take.mp hpre
    have hOnly' : ∀ k, k < sub.dropLast.length → root.length < k →
        ∀ q, FS.entry (fs.rmdir sub) q → q ≠ [] → q.dropLast = sub.dropLast.take k →
          q = sub.dropLast.take (k + 1) := by
      intro j hj1 hj2 q hent hne hdl
      rw [List.length_dropLast] at hj1
      rw [htake j (by omega)] at hdl
      rw [htake (j + 1) (by omega)]
      exact hOnly j (by omega) hj2 q (entry_rmdir fs sub q hent) hne hdl
    have hNFL' : ∀ k, k ≤ sub.dropLast.length → root.length < k →
        (∀ c, (sub.dropLast.take k, c) ∉ (fs.rmdir sub).files)
          ∧ sub.dropLast.take k ∉ (fs.rmdir sub).links := by
      intro j hj1 hj2
      rw [List.length_dropLast] at hj1
      rw [htake j (by omega)]
      exact hNFL j (by omega) hj2
    have hleaf' : sub.dropLast = root ∨ (fs.rmdir sub).hasChild sub.dropLast = false := by
      rcases Nat.eq_zero_or_pos m with hm | hm
      · left
        exact (List.IsPrefix.eq_of_length hpre' (by omega)).symm
      · right
        by_contra hcc
        have hcc' : (fs.rmdir sub).hasChild sub.dropLast = true := by
          cases hcx : (fs.rmdir sub).hasChild sub.dropLast
          · exact absurd hcx hcc
          · rfl
        rcases (hasChild_iff _ _).mp hcc' with ⟨q, hent, hne, hdl⟩
        have hdl' : q.dropLast = sub.take (sub.length - 1) := by
          rw [hdl, List.dropLast_eq_take]
        have hq : q = sub.take (sub.length - 1 + 1) :=
          hOnly (sub.length - 1) (by omega) (by omega) q (entry_rmdir fs sub q hent)
            hne hdl'
        have hq2 : q = sub := by
          rw [hq]
          have : sub.length - 1 + 1 = sub.length := by omega
          rw [this, List.take_length]
        subst hq2
        rcases hent with ⟨c, hc⟩ | hd | hl
        · have := (hNFL q.length (le_refl _) (by omega)).1 c
          rw [List.take_length] at this
          exact this hc
        · exact ((mem_dirs_rmdir fs q q).mp hd).2 rfl
        · have := (hNFL q.length (le_refl _) (by omega)).2
          rw [List.take_length] at this
          exact this hl
    by_cases hk3 : k ≤ sub.length - 1
    · rw [← htake k hk3]
      exact ih f (fs.rmdir sub) sub.dropLast (by omega) hlen' hpre' hOnly' hleaf'
        hNFL' k (by rw [List.length_dropLast]; omega) hk2
    · have hke : k = sub.length := by omega
      rw [hke, List.take_length]
      intro hmem
      have := dirs_removeEmptyGo_subset root f (fs.rmdir sub) sub.dropLast sub hmem
      exact ((mem_dirs_rmdir fs sub sub).mp this).2 rfl

/-- C8 (confirmed): after `delete` removes a stored file it walks upward from
the file's parent toward the root.  For every store (no assumption about the
rest of the tree): (i) only directory entries change — the file set is
exactly the old one minus the removed file; (ii) the root is never removed;
(iii) every directory that still has a file strictly below it is untouched;
(iv) every directory that was removed was neither a symlink nor the root
(and, by (iii), had no file below it — it was empty); (v) the walk stops at
the first non-empty directory: if the file's parent still has an entry, no
directory is removed at all.  And (vi), in the particular case in which the
removed file was the only object in its shard subtree, every ancestor
directory strictly between the root and the file is removed. -/
theorem delete_prunes_empty_dirs (cfg : Cfg) (fs : FS) (tok : Str) (rp : Path)
    (hres : realpath cfg fs tok = some rp)
    (hWF : WF fs) :
    (delete cfg fs tok none).files = (fs.removeFile rp).files
    ∧ (cfg.root ∈ fs.dirs → cfg.root ∈ (delete cfg fs tok none).dirs)
    ∧ (∀ d ∈ fs.dirs, (∃ q c, (q, c) ∈ (fs.removeFile rp).files ∧ d <+: q ∧ d ≠ q) →
        d ∈ (delete cfg fs tok none).dirs)
    ∧ (∀ d ∈ fs.dirs, d ∉ (delete cfg fs tok none).dirs →
        fs.islink d = false ∧ d ≠ cfg.root)
    ∧ ((fs.removeFile rp).hasChild rp.dropLast = true →
        (delete cfg fs tok none).dirs = fs.dirs)
    ∧ (issubdir rp cfg.root = true →
        (∀ k, k < rp.length → cfg.root.length < k →
          ∀ q ∈ (fs.removeFile rp).paths, q ≠ [] → q.dropLast = rp.take k →
            q = rp.take (k + 1)) →
        (∀ k, k < rp.length → cfg.root.length < k →
          rp.take k ∉ fs.fileKeys ∧ rp.take k ∉ fs.links) →
        rp ∉ fs.dirs → rp ∉ fs.links →
        ∀ k, k < rp.length → cfg.root.length < k →
          rp.take k ∉ (delete cfg fs tok none).dirs) := by
  have hdel : delete cfg fs tok none
      = remove_empty cfg (fs.removeFile rp) rp.dropLast := by
    unfold delete
    rw [hres]
  have hWF1 : WF (fs.removeFile rp) := by
    intro p hp k hk1 hk2
    rcases List.mem_map.mp hp with ⟨f, hf, rfl⟩
    rcases List.mem_filter.mp hf with ⟨hf', _⟩
    exact hWF f.1 (List.mem_map.mpr ⟨f, hf', rfl⟩) k hk1 hk2
  have hdirs1 : (fs.removeFile rp).dirs = fs.dirs := rfl
  have hlinks1 : (fs.removeFile rp).links = fs.links := rfl
  rw [hdel]
  unfold remove_empty
  by_cases hhp : haspath cfg rp.dropLast = true
  · rw [if_pos hhp]
    have hsublen : cfg.root.length < rp.dropLast.length := by
      have := (Bool.and_eq_true _ _).mp hhp
      exact of_decide_eq_true this.2
    have hsubpre : cfg.root <+: rp.dropLast :=
      List.isPrefixOf_iff_prefix.mp ((Bool.and_eq_true _ _).mp hhp).1
    rw [List.length_dropLast] at hsublen
    have htake : ∀ j, j ≤ rp.length - 1 → rp.dropLast.take j = rp.take j :=
      fun j hj => dropLast_take_eq rp j hj
    refine ⟨files_removeEmptyGo cfg.root _ _ _, ?_, ?_, ?_, ?_, ?_⟩
    · intro h
      exact root_mem_removeEmptyGo cfg.root _ _ _ (hdirs1 ▸ h)
    · intro d hd hq
      exact filedirs_removeEmptyGo cfg.root _ _ _ hWF1 d (hdirs1 ▸ hd) hq
    · intro d hd hnd
      have := removed_safe_removeEmptyGo cfg.root _ _ _ d (hdirs1 ▸ hd) hnd
      exact ⟨this.1, this.2⟩
    · intro hch
      rw [removeEmptyGo_succ]
      by_cases hsr : rp.dropLast = cfg.root
      · rw [if_pos hsr]
        exact hdirs1
      · rw [if_neg hsr]
        simp only [hch, Bool.true_or, if_true]
        exact hdirs1
    · intro _ hOnly hchain hrpd hrpl k hk1 hk2
      have hleaf : rp.dropLast = cfg.root
          ∨ (fs.removeFile rp).hasChild rp.dropLast = false := by
        right
        by_contra hcc
        have hcc2 : (fs.removeFile rp).hasChild rp.dropLast = true := by
          cases hcx : (fs.removeFile rp).hasChild rp.dropLast
          · exact absurd hcx hcc
          · rfl
        rcases (hasChild_iff _ _).mp hcc2 with ⟨q, hent, hne, hdl⟩
        have hdl2 : q.dropLast = rp.take (rp.length - 1) := by
          rw [hdl, List.dropLast_eq_take]
        have hq : q = rp.take (rp.length - 1 + 1) :=
          hOnly (rp.length - 1) (by omega) (by omega) q
            ((entry_iff_mem_paths _ q).mp hent) hne hdl2
        have hq2 : q = rp := by
          rw [hq]
          have he : rp.length - 1 + 1 = rp.length := by omega
          rw [he, List.take_length]
        subst hq2
        rcases hent with ⟨c, hc⟩ | hd | hl
        · exact rp_not_in_removeFile fs q c hc
        · exact hrpd (hdirs1 ▸ hd)
        · exact hrpl (hlinks1 ▸ hl)
      have hres6 := chain_removed_removeEmptyGo cfg.root
        (rp.dropLast.length - cfg.root.length) (rp.dropLast.length + 1)
        (fs.removeFile rp) rp.dropLast (by omega)
        (by rw [List.length_dropLast]; omega)
        hsubpre
        (by
          intro j hj1 hj2 q hent hne hdl
          rw [List.length_dropLast] at hj1
          rw [htake j (by omega)] at hdl
          rw [htake (j + 1) (by omega)]
          exact hOnly j (by omega) hj2 q ((entry_iff_mem_paths _ q).mp hent) hne hdl)
        hleaf
        (by
          intro j hj1 hj2
          rw [List.length_dropLast] at hj1
          rw [htake j (by omega)]
          have hch := hchain j (by omega) hj2
          refine ⟨?_, ?_⟩
          · intro c hc
            rcases List.mem_filter.mp hc with ⟨hc2, _⟩
            exact hch.1 (show rp.take j ∈ fs.files.map (fun f => f.1) from
              List.mem_map.mpr ⟨(rp.take j, c), hc2, rfl⟩)
          · exact fun hl => hch.2 (hlinks1 ▸ hl))
        k (by rw [List.length_dropLast]; omega) hk2
      rw [htake k (by omega)] at hres6
      exact hres6
  · rw [if_neg hhp]
    refine ⟨rfl, fun h => hdirs1 ▸ h, fun d hd _ => hdirs1 ▸ hd, ?_, fun _ => rfl, ?_⟩
    · intro d hd hnd
      exact absurd (hdirs1 ▸ hd) hnd
    · intro hsubd _ _ _ _ k hk1 hk2
      have hrplen : cfg.root.length < rp.length := by
        have := (Bool.and_eq_true _ _).mp hsubd
        exact of_decide_eq_true this.2
      have hrppre : cfg.root <+: rp :=
        List.isPrefixOf_iff_prefix.mp ((Bool.and_eq_true _ _).mp hsubd).1
      have hpre2 : cfg.root.isPrefixOf rp.dropLast = true := by
        rw [List.isPrefixOf_iff_prefix, List.prefix_iff_eq_take,
          dropLast_take_eq rp cfg.root.length (by omega)]
        exact List.prefix_iff_eq_take.mp hrppre
      have hlen2 : ¬(cfg.root.length < rp.dropLast.length) := by
        intro hlt
        apply hhp
        unfold haspath issubdir
        rw [hpre2]
        simpa using hlt
      rw [List.length_dropLast] at hlen2
      omega

/-- C8 witness: deleting the only object of a shard subtree in `fsC8` — the
chain directories are removed, the root and the directory of the other
object survive. -/
theorem delete_prunes_empty_dirs_witness :
    (delete cfgX fsC8 sha256abc none).files = ((fsC8.removeFile canonAbc)).files
    ∧ cfgX.root ∈ (delete cfgX fsC8 sha256abc none).dirs
    ∧ (storeRoot ++ [['x']]) ∈ (delete cfgX fsC8 sha256abc none).dirs
    ∧ canonAbc.take 3 ∉ (delete cfgX fsC8 sha256abc none).dirs
    ∧ canonAbc.take 6 ∉ (delete cfgX fsC8 sha256abc none).dirs := by
  have h := delete_prunes_empty_dirs cfgX fsC8 sha256abc canonAbc (by decide)
    (by unfold WF; decide)
  refine ⟨h.1, h.2.1 (by decide), ?_, ?_, ?_⟩
  · exact h.2.2.1 (storeRoot ++ [['x']]) (by decide)
      ⟨storeRoot ++ [['x'], ['y']], [1], by decide, by decide, by decide⟩
  · exact h.2.2.2.2.2 (by decide) (by decide) (by decide) (by decide) (by decide)
      3 (by decide) (by decide)
  · exact h.2.2.2.2.2 (by decide) (by decide) (by decide) (by decide) (by decide)
      6 (by decide) (by decide)

/-! ## C9 -/

theorem splitAtLastDot_cons (c : Char) (rest : Str) :
    splitAtLastDot (c :: rest) = match splitAtLastDot rest with
      | some (r, e) => some (c :: r, e)
      | none => if c = extsep then some ([], c :: rest) else none := rfl

theorem notin_of_splitAtLastDot_none (l : Str) :
    splitAtLastDot l = none → extsep ∉ l := by
  induction l with
  | nil => intro h; simp
  | cons c rest ih =>
    intro h
    cases hs : splitAtLastDot rest with
    | none =>
      rw [splitAtLastDot_cons, hs] at h
      by_cases hc : c = extsep
      · rw [if_pos hc] at h
        cases h
      · intro hm
        rcases List.mem_cons.mp hm with hm | hm
        · exact hc hm.symm
        · exact ih hs hm
    | some pr =>
      rw [splitAtLastDot_cons, hs] at h
      cases h

theorem splitAtLastDot_spec (l : Str) : ∀ r e, splitAtLastDot l = some (r, e) →
    l = r ++ e ∧ ∃ e2, e = extsep :: e2 ∧ extsep ∉ e2 := by
  induction l with
  | nil => intro r e h; cases h
  | cons c rest ih =>
    intro r e h
    cases hs : splitAtLastDot rest with
    | none =>
      rw [splitAtLastDot_cons, hs] at h
      by_cases hc : c = extsep
      · rw [if_pos hc] at h
        have h2 : (([] : Str), c :: rest) = (r, e) := Option.some.inj h
        injection h2 with hr he
        subst hr
        subst he
        subst hc
        exact ⟨rfl, rest, rfl, notin_of_splitAtLastDot_none rest hs⟩
      · rw [if_neg hc] at h
        cases h
    | some pr =>
      rcases pr with ⟨r2, e2⟩
      rw [splitAtLastDot_cons, hs] at h
      have h2 : (c :: r2, e2) = (r, e) := Option.some.inj h
      injection h2 with hr he
      subst hr
      subst he
      rcases ih r2 e2 hs with ⟨hre, hee⟩
      exact ⟨by rw [hre]; rfl, hee⟩

theorem splitExtLeaf_snd_spec (l : Str) :
    (splitExtLeaf l).2 = [] ∨
      ∃ e2, (splitExtLeaf l).2 = extsep :: e2 ∧ extsep ∉ e2 := by
  rcases hs : splitAtLastDot l with _ | ⟨r, e⟩
  · left
    unfold splitExtLeaf
    rw [hs]
  · rcases splitAtLastDot_spec l r e hs with ⟨hre, e2, he2, hee⟩
    have hsplit : splitExtLeaf l = if (r.any fun c => decide (c ≠ extsep)) = true
        then (r, e) else (l, []) := by
      unfold splitExtLeaf
      rw [hs]
    by_cases hany : (r.any fun c => decide (c ≠ extsep)) = true
    · right
      rw [hsplit, if_pos hany]
      exact ⟨e2, he2, hee⟩
    · left
      rw [hsplit, if_neg hany]

theorem splitAtLastDot_append_ext (a e : Str) (he : extsep ∉ e) :
    splitAtLastDot (a ++ extsep :: e) = some (a, extsep :: e) := by
  induction a with
  | nil =>
    show splitAtLastDot (extsep :: e) = some ([], extsep :: e)
    rw [splitAtLastDot_cons]
    cases hs : splitAtLastDot e with
    | none => simp
    | some pr =>
      rcases pr with ⟨r, e2⟩
      rcases splitAtLastDot_spec e r e2 hs with ⟨hre, e3, rfl, _⟩
      exact absurd (hre ▸ List.mem_append_right r (List.mem_cons_self extsep e3)) he
  | cons c r ih =>
    show splitAtLastDot (c :: (r ++ extsep :: e)) = some (c :: r, extsep :: e)
    rw [splitAtLastDot_cons, ih]

theorem splitExtLeaf_append_ext (a e : Str) (ha1 : a ≠ []) (ha2 : extsep ∉ a)
    (he : extsep ∉ e) :
    splitExtLeaf (a ++ extsep :: e) = (a, extsep :: e) := by
  have hany : (a.any fun c => decide (c ≠ extsep)) = true := by
    rw [List.any_eq_true]
    rcases a with _ | ⟨c, r⟩
    · exact absurd rfl ha1
    · have hc : c ≠ extsep := fun h => ha2 (h ▸ List.mem_cons_self c r)
      exact ⟨c, List.mem_cons_self c r, decide_eq_true hc⟩
  have hsplit : splitExtLeaf (a ++ extsep :: e)
      = if (a.any fun c => decide (c ≠ extsep)) = true
        then (a, extsep :: e) else (a ++ extsep :: e, []) := by
    unfold splitExtLeaf
    rw [splitAtLastDot_append_ext a e he]
  rw [hsplit, if_pos hany]

theorem idpath_eq (cfg : Cfg) (id ext : Str) :
    idpath cfg id ext = cfg.root ++
      (((List.range cfg.depth).map (fun i => (id.drop (i * cfg.width)).take cfg.width))
        ++ [id.drop (cfg.depth * cfg.width) ++ normExt ext]) := by
  unfold idpath appendLast shard
  rw [List.dropLast_concat, List.getLastD_concat]

theorem idpath_getLastD (cfg : Cfg) (id ext : Str) :
    (idpath cfg id ext).getLastD [] = id.drop (cfg.depth * cfg.width) ++ normExt ext := by
  rw [idpath_eq, ← List.append_assoc, List.getLastD_concat]

theorem normExt_of_splitExt (e : Str)
    (h : e = [] ∨ ∃ e', e = extsep :: e' ∧ extsep ∉ e') : normExt e = e := by
  rcases h with rfl | ⟨e', rfl, _⟩
  · rfl
  · unfold normExt
    simp [extsep]

/-- Canonical paths are stable: recomputing the expected address of a file
already at its expected path yields the same path.  Requires the digest to be
dot-free and longer than `depth * width` characters. -/
theorem addrExpected_stable (H : String → Content → Str) (cfg : Cfg) (flag : Bool)
    (p : Path) (c : Content)
    (hdot : extsep ∉ H cfg.algorithm c)
    (hlen : cfg.depth * cfg.width < (H cfg.algorithm c).length) :
    (addrExpected H cfg flag (addrExpected H cfg flag p c).abspath c).abspath
      = (addrExpected H cfg flag p c).abspath := by
  cases flag with
  | false => rfl
  | true =>
    show idpath cfg (computehash H cfg c none)
        (splitExtLeaf ((idpath cfg (computehash H cfg c none)
          ((splitExtLeaf (p.getLastD [])).2)).getLastD [])).2
      = idpath cfg (computehash H cfg c none) ((splitExtLeaf (p.getLastD [])).2)
    have hid : computehash H cfg c none = H cfg.algorithm c := rfl
    rw [hid]
    have hspec := splitExtLeaf_snd_spec (p.getLastD [])
    have hnorm : normExt ((splitExtLeaf (p.getLastD [])).2)
        = (splitExtLeaf (p.getLastD [])).2 := normExt_of_splitExt _ hspec
    have hleafdot : extsep ∉ (H cfg.algorithm c).drop (cfg.depth * cfg.width) := by
      intro hm
      exact hdot ((List.drop_sublist _ _).mem hm)
    have hleafne : (H cfg.algorithm c).drop (cfg.depth * cfg.width) ≠ [] := by
      intro h
      have := congrArg List.length h
      rw [List.length_drop] at this
      simp at this
      omega
    rw [idpath_getLastD, hnorm]
    rcases hspec with h0 | ⟨e2, he2, hee⟩
    · rw [h0, List.append_nil, splitExtLeaf_no_dot _ hleafdot]
    · rw [he2, splitExtLeaf_append_ext _ e2 hleafne hleafdot hee, ← he2]

theorem find_eq_some_of_nodup (l : List (Path × Content)) (p : Path) (c : Content)
    (hnod : (l.map (fun f => f.1)).Nodup) (h : (p, c) ∈ l) :
    l.find? (fun f => f.1 = p) = some (p, c) := by
  induction l with
  | nil => cases h
  | cons f t ih =>
    rcases List.mem_cons.mp h with hf | hf
    · rw [← hf]
      simp [List.find?]
    · have hnt : (t.map (fun f => f.1)).Nodup := (List.nodup_cons.mp hnod).2
      have hne : f.1 ≠ p := by
        intro he
        apply (List.nodup_cons.mp hnod).1
        rw [show (fun f => f.1) f = f.1 from rfl, he]
        exact List.mem_map.mpr ⟨(p, c), hf, rfl⟩
      rw [List.find?]
      have hd : (decide (f.1 = p)) = false := by simpa using hne
      rw [hd]
      exact ih hnt hf

theorem lookupFile_eq_some (fs : FS) (p : Path) (c : Content)
    (hnod : (fs.files.map (fun f => f.1)).Nodup) (h : (p, c) ∈ fs.files) :
    fs.lookupFile p = some c := by
  unfold FS.lookupFile
  rw [find_eq_some_of_nodup fs.files p c hnod h]
  rfl

theorem corruptedEntry_eq_none (H : String → Content → Str) (cfg : Cfg) (flag : Bool)
    (f : Path × Content) (h : (addrExpected H cfg flag f.1 f.2).abspath = f.1) :
    corruptedEntry H cfg flag f = none := by
  simp [corruptedEntry, h]

theorem corruptedEntry_eq_some (H : String → Content → Str) (cfg : Cfg) (flag : Bool)
    (f : Path × Content) (h : ¬(addrExpected H cfg flag f.1 f.2).abspath = f.1) :
    corruptedEntry H cfg flag f = some (f.1, addrExpected H cfg flag f.1 f.2) := by
  simp [corruptedEntry, h]

theorem corrupted_keys_sublist (H : String → Content → Str) (cfg : Cfg) (flag : Bool)
    (fs : FS) :
    ((corrupted H cfg flag fs).map (fun e => e.1)).Sublist
      (fs.files.map (fun f => f.1)) := by
  unfold corrupted
  induction fs.files with
  | nil => simp
  | cons f t ih =>
    rw [List.filterMap_cons]
    by_cases hc : (addrExpected H cfg flag f.1 f.2).abspath = f.1
    · rw [corruptedEntry_eq_none H cfg flag f hc]
      exact ih.cons f.1
    · rw [corruptedEntry_eq_some H cfg flag f hc, List.map_cons, List.map_cons]
      exact ih.cons₂ f.1

theorem mem_files_erase (l : List (Path × Content)) (p0 : Path) (f : Path × Content) :
    f ∈ l.filter (fun f => !(f.1 = p0 : Bool)) ↔ f ∈ l ∧ f.1 ≠ p0 := by
  simp [List.mem_filter]

theorem notin_keys_of_isfile_false (fs : FS) (x : Path) (h : fs.isfile x = false) :
    x ∉ fs.files.map (fun f => f.1) := by
  intro hx
  rcases List.mem_map.mp hx with ⟨f, hf, hfx⟩
  exact (isfile_eq_false_iff fs x).mp h f hf hfx

/-- The invariant of the `repair` loop: starting from a state whose files are
either canonical or scheduled in the remaining work list (with consistent
addresses), after the loop every file is at its expected canonical path. -/
theorem repair_fold_invariant (H : String → Content → Str) (cfg : Cfg) (flag : Bool) :
    ∀ (rem : List (Path × HashAddress)) (s : FS),
      (s.files.map (fun f => f.1)).Nodup →
      (∀ c ∈ s.files.map (fun f => f.2),
        extsep ∉ H cfg.algorithm c ∧ cfg.depth * cfg.width < (H cfg.algorithm c).length) →
      (∀ p c, (p, c) ∈ s.files →
        (addrExpected H cfg flag p c).abspath = p
          ∨ (p, addrExpected H cfg flag p c) ∈ rem) →
      (∀ p a, (p, a) ∈ rem → ∃ c, (p, c) ∈ s.files ∧ a = addrExpected H cfg flag p c) →
      ((rem.map (fun e => e.1)).Nodup) →
      ∀ p c, (p, c) ∈ (rem.foldl (repairStep cfg) s).files →
        (addrExpected H cfg flag p c).abspath = p := by
  intro rem
  induction rem with
  | nil =>
    intro s hnod hdig hb hc hd p c hm
    rcases hb p c hm with h | h
    · exact h
    · cases h
  | cons e0 rem' ih =>
    intro s hnod hdig hb hc hd p c hm
    rcases e0 with ⟨p0, a0⟩
    rcases hc p0 a0 (List.mem_cons_self _ _) with ⟨c0, hc0, ha0⟩
    rw [List.map_cons] at hd
    have hp0ne : ∀ q a, (q, a) ∈ rem' → q ≠ p0 := by
      intro q a hqa he
      apply (List.nodup_cons.mp hd).1
      have hmm : q ∈ rem'.map (fun e => e.1) := List.mem_map.mpr ⟨(q, a), hqa, rfl⟩
      rw [he] at hmm
      exact hmm
    rw [List.foldl_cons] at hm
    by_cases hocc : s.isfile a0.abspath = true
    · have hstep : repairStep cfg s (p0, a0) = s.removeFile p0 := by
        unfold repairStep
        rw [hocc]
        simp
      rw [hstep] at hm
      refine ih (s.removeFile p0) ?_ ?_ ?_ ?_ (List.nodup_cons.mp hd).2 p c hm
      · exact ((List.filter_sublist _).map _).nodup hnod
      · intro cq hcq
        rcases List.mem_map.mp hcq with ⟨f, hf, rfl⟩
        rcases (mem_files_erase _ p0 f).mp hf with ⟨hf', _⟩
        exact hdig f.2 (List.mem_map.mpr ⟨f, hf', rfl⟩)
      · intro q cq hq
        rcases (mem_files_erase _ p0 (q, cq)).mp hq with ⟨hq', hqne⟩
        rcases hb q cq hq' with h | h
        · exact Or.inl h
        · rcases List.mem_cons.mp h with h | h
          · exact absurd (congrArg (fun e => e.1) h) hqne
          · exact Or.inr h
      · intro q a hqa
        rcases hc q a (List.mem_cons_of_mem _ hqa) with ⟨cq, hq, ha⟩
        exact ⟨cq, (mem_files_erase _ p0 (q, cq)).mpr ⟨hq, hp0ne q a hqa⟩, ha⟩
    · have hocc' : s.isfile a0.abspath = false := by
        cases hx : s.isfile a0.abspath
        · rfl
        · exact absurd hx hocc
      have hlk : (s.makedirs a0.abspath.dropLast).lookupFile p0 = some c0 :=
        lookupFile_eq_some _ p0 c0 hnod hc0
      have hstep : repairStep cfg s (p0, a0)
          = ((s.makedirs a0.abspath.dropLast).removeFile p0).addFile a0.abspath c0 := by
        unfold repairStep
        rw [hocc']
        simp only [Bool.false_eq_true, if_false]
        unfold FS.move
        rw [hlk]
      rw [hstep] at hm
      have hdigc0 := hdig c0 (List.mem_map.mpr ⟨(p0, c0), hc0, rfl⟩)
      have hfiles : (((s.makedirs a0.abspath.dropLast).removeFile p0).addFile
          a0.abspath c0).files
          = s.files.filter (fun f => !(f.1 = p0 : Bool)) ++ [(a0.abspath, c0)] := rfl
      refine ih _ ?_ ?_ ?_ ?_ (List.nodup_cons.mp hd).2 p c hm
      · rw [hfiles, List.map_append]
        rw [List.nodup_append]
        refine ⟨((List.filter_sublist _).map _).nodup hnod, List.nodup_singleton _, ?_⟩
        intro q hq hq2
        have hq2' : q = a0.abspath := by simpa using hq2
        rcases List.mem_map.mp hq with ⟨f, hf, rfl⟩
        rcases (mem_files_erase _ p0 f).mp hf with ⟨hf', _⟩
        exact notin_keys_of_isfile_false s a0.abspath hocc'
          (hq2' ▸ List.mem_map.mpr ⟨f, hf', rfl⟩)
      · intro cq hcq
        rw [hfiles, List.map_append] at hcq
        rcases List.mem_append.mp hcq with h | h
        · rcases List.mem_map.mp h with ⟨f, hf, rfl⟩
          rcases (mem_files_erase _ p0 f).mp hf with ⟨hf', _⟩
          exact hdig f.2 (List.mem_map.mpr ⟨f, hf', rfl⟩)
        · have : cq = c0 := by simpa using h
          rw [this]
          exact hdigc0
      · intro q cq hq
        rw [hfiles] at hq
        rcases List.mem_append.mp hq with h | h
        · rcases (mem_files_erase _ p0 (q, cq)).mp h with ⟨hq', hqne⟩
          rcases hb q cq hq' with h2 | h2
          · exact Or.inl h2
          · rcases List.mem_cons.mp h2 with h2 | h2
            · exact absurd (congrArg (fun e => e.1) h2) hqne
            · exact Or.inr h2
        · have hqe : q = a0.abspath ∧ cq = c0 := by
            have : (q, cq) = (a0.abspath, c0) := by simpa using h
            exact ⟨congrArg (fun f => f.1) this, congrArg (fun f => f.2) this⟩
          left
          rw [hqe.1, hqe.2, ha0]
          exact addrExpected_stable H cfg flag p0 c0 hdigc0.1 hdigc0.2
      · intro q a hqa
        rcases hc q a (List.mem_cons_of_mem _ hqa) with ⟨cq, hq, ha⟩
        refine ⟨cq, ?_, ha⟩
        rw [hfiles]
        exact List.mem_append_left _
          ((mem_files_erase _ p0 (q, cq)).mpr ⟨hq, hp0ne q a hqa⟩)

/-- C9 (confirmed): `repair` materialises the complete corrupted set before
mutating anything (it is the returned repaired list), and it is idempotent —
after one run no file is left off its expected canonical path, so a second
run finds an empty corrected set.  Hypotheses: distinct file paths, and the
primary digests of the stored contents are dot-free and longer than
`depth * width` (the spec's §3 configuration invariant). -/
theorem repair_idempotent (H : String → Content → Str) (cfg : Cfg) (flag : Bool)
    (fs : FS)
    (hnod : (fs.files.map (fun f => f.1)).Nodup)
    (hdig : ∀ c ∈ fs.files.map (fun f => f.2),
      extsep ∉ H cfg.algorithm c ∧ cfg.depth * cfg.width < (H cfg.algorithm c).length) :
    (repair H cfg flag (repair H cfg flag fs).2).1 = []
    ∧ corrupted H cfg flag (repair H cfg flag fs).2 = []
    ∧ (repair H cfg flag fs).1 = corrupted H cfg flag fs := by
  have hb0 : ∀ p c, (p, c) ∈ fs.files →
      (addrExpected H cfg flag p c).abspath = p
        ∨ (p, addrExpected H cfg flag p c) ∈ corrupted H cfg flag fs := by
    intro p c h
    by_cases he : (addrExpected H cfg flag p c).abspath = p
    · exact Or.inl he
    · right
      unfold corrupted
      exact List.mem_filterMap.mpr
        ⟨(p, c), h, corruptedEntry_eq_some H cfg flag (p, c) he⟩
  have hc0 : ∀ p a, (p, a) ∈ corrupted H cfg flag fs →
      ∃ c, (p, c) ∈ fs.files ∧ a = addrExpected H cfg flag p c := by
    intro p a h
    unfold corrupted at h
    rcases List.mem_filterMap.mp h with ⟨f, hf, hsome⟩
    by_cases hcnd : (addrExpected H cfg flag f.1 f.2).abspath = f.1
    · rw [corruptedEntry_eq_none H cfg flag f hcnd] at hsome
      cases hsome
    · rw [corruptedEntry_eq_some H cfg flag f hcnd] at hsome
      have h2 := Option.some.inj hsome
      injection h2 with hp ha
      refine ⟨f.2, ?_, ?_⟩
      · rw [← hp]
        exact hf
      · rw [← ha, ← hp]
  have hd0 : ((corrupted H cfg flag fs).map (fun e => e.1)).Nodup :=
    (corrupted_keys_sublist H cfg flag fs).nodup hnod
  have hall := repair_fold_invariant H cfg flag (corrupted H cfg flag fs) fs hnod hdig
    hb0 hc0 hd0
  have hcor : corrupted H cfg flag (repair H cfg flag fs).2 = [] := by
    unfold corrupted
    rw [List.filterMap_eq_nil_iff]
    intro f hf
    exact corruptedEntry_eq_none H cfg flag f (hall f.1 f.2 hf)
  exact ⟨hcor, hcor, rfl⟩

/-- C9 witness: the theorem at a store holding one object at a wrong
location. -/
theorem repair_idempotent_witness :
    (repair hashlibABC cfgX true (repair hashlibABC cfgX true fsC9).2).1 = []
    ∧ (repair hashlibABC cfgX true fsC9).1 = corrupted hashlibABC cfgX true fsC9 :=
  have h := repair_idempotent hashlibABC cfgX true fsC9 (by decide) (by decide)
  ⟨h.1, h.2.2⟩

end HashFS
